import Mathlib

/-!
Merge sort, sequential and fork-join: a shallow embedding of `main.cpp`

The C++ program sorts a `std::vector<int>` in place with two sorters,
`SequentialMergeSort` and `ParallelMergeSort`, whose `merge` routines are
textually identical.

Conventions of the embedding.

* A vector is a `List`; an in-place update is a new list (`List.set`).
* An `int` is an `Int` kept in the 32-bit range by `wrap32` after every
  arithmetic operation (two's-complement wrap-around), and
  `data.size() - 1` is computed modulo `2^64` before it is narrowed to `int`.
* An index expression is converted to `size_t`; a negative or too large index
  is an out-of-bounds access.  Every function returns an `Option`: `none`
  stands for an out-of-bounds access, for a scratch vector requested with a
  negative length, or for a loop or recursion that used up its fuel.
* Every loop and the recursion are structurally recursive on a fuel counter;
  the callers supply a fuel that the theorems show to be sufficient.
* The element type and its `<=` are parameters of the generic routines, so
  that the same algorithm can be run on plain integers and on tagged keys.
* `mergeStateWith` repeats `merge` and also reports the final loop counters
  (`mergeWith_eq_state` relates the two), `middleOf` names the expression for
  `middle` that the recursion evaluates (`mergeSortWith_step`), and
  `referenceMerge` is the two-way merge as the specification words it.
-/

namespace MergeSortModel

/-- Largest value of the C++ type `int` (32 bits, signed). -/
def INT_MAX : Int := 2147483647

/-- Reduction of an unbounded integer to a 32-bit signed `int`
(two's complement, modulo `2^32`). -/
def wrap32 (x : Int) : Int := (2147483648 + x) % 4294967296 - 2147483648

/-- The argument `data.size() - 1` of `sort`: the subtraction is done on the
unsigned 64-bit `size_t`, the result is narrowed to `int`. -/
def sizeMinusOne (n : Nat) : Int := wrap32 (((n : Int) - 1) % 18446744073709551616)

/-- The number of leading elements that lie in the range `[0, data.size() - 1]` that
`sort` hands to the recursion: all of them up to `2^31` elements, fewer beyond. -/
def sortedLen (n : Nat) : Nat := (sizeMinusOne n + 1).toNat

/-- Read `v[idx]` for an `int` index: defined only inside `0 .. size-1`. -/
def readAt {α : Type} (v : List α) (idx : Int) : Option α :=
  if 0 ≤ idx then v[idx.toNat]? else none

/-- Store `v[idx] = x` for an `int` index: defined only inside `0 .. size-1`. -/
def writeAt {α : Type} (v : List α) (idx : Int) (x : α) : Option (List α) :=
  if 0 ≤ idx ∧ idx.toNat < v.length then some (v.set idx.toNat x) else none

/-- The constructor `std::vector<T> a(n)` for an `int` length: `n` value-initialised
elements, and a failure when `n` is negative (it converts to a huge `size_t`). -/
def allocVec {α : Type} (dflt : α) (n : Int) : Option (List α) :=
  if 0 ≤ n then some (List.replicate n.toNat dflt) else none

/-- The loop `for (int i = 0; i < n; ++i) arr[i] = data[base + i];`,
started at the current value of `i`. -/
def copyLoop {α : Type} (data : List α) (base n : Int) :
    Nat → Int → List α → Option (List α)
  | 0, _, _ => none
  | fuel + 1, i, arr =>
    if i < n then
      match readAt data (wrap32 (base + i)) with
      | none => none
      | some x =>
        match writeAt arr i x with
        | none => none
        | some arr1 => copyLoop data base n fuel (wrap32 (i + 1)) arr1
    else some arr

/-- The loop `while (i < n1 && j < n2)` of `merge`: it returns the final
`i`, `j`, `k` and the updated `data`. -/
def mergeLoop {α : Type} (le : α → α → Bool) (leftArray rightArray : List α) (n1 n2 : Int) :
    Nat → Int → Int → Int → List α → Option (Int × Int × Int × List α)
  | 0, _, _, _, _ => none
  | fuel + 1, i, j, k, data =>
    if i < n1 ∧ j < n2 then
      match readAt leftArray i, readAt rightArray j with
      | some a, some b =>
        if le a b then
          match writeAt data k a with
          | none => none
          | some data1 =>
            mergeLoop le leftArray rightArray n1 n2 fuel (wrap32 (i + 1)) j (wrap32 (k + 1)) data1
        else
          match writeAt data k b with
          | none => none
          | some data1 =>
            mergeLoop le leftArray rightArray n1 n2 fuel i (wrap32 (j + 1)) (wrap32 (k + 1)) data1
      | _, _ => none
    else some (i, j, k, data)

/-- The loops `while (i < n) { data[k] = arr[i]; i++; k++; }` that copy what is
left of one scratch vector: it returns the final `i`, `k` and `data`. -/
def drainLoop {α : Type} (arr : List α) (n : Int) :
    Nat → Int → Int → List α → Option (Int × Int × List α)
  | 0, _, _, _ => none
  | fuel + 1, i, k, data =>
    if i < n then
      match readAt arr i with
      | none => none
      | some a =>
        match writeAt data k a with
        | none => none
        | some data1 => drainLoop arr n fuel (wrap32 (i + 1)) (wrap32 (k + 1)) data1
    else some (i, k, data)

/-- The routine `merge(data, left, middle, right)`, generic in the element type:
`le` is the comparison `leftArray[i] <= rightArray[j]` and `dflt` the value the
scratch vectors are initialised with.  No loop of `merge` can run more than
`data.size()` times on a valid range, which is the fuel given to each. -/
def mergeWith {α : Type} (le : α → α → Bool) (dflt : α)
    (data : List α) (left middle right : Int) : Option (List α) :=
  let n1 := wrap32 (wrap32 (middle - left) + 1)
  let n2 := wrap32 (right - middle)
  let fuel := data.length + 1
  match allocVec dflt n1, allocVec dflt n2 with
  | some leftArray0, some rightArray0 =>
    match copyLoop data left n1 fuel 0 leftArray0 with
    | none => none
    | some leftArray =>
      match copyLoop data (wrap32 (middle + 1)) n2 fuel 0 rightArray0 with
      | none => none
      | some rightArray =>
        match mergeLoop le leftArray rightArray n1 n2 fuel 0 0 left data with
        | none => none
        | some (i, j, k, data1) =>
          match drainLoop leftArray n1 fuel i k data1 with
          | none => none
          | some (_, k2, data2) =>
            match drainLoop rightArray n2 fuel j k2 data2 with
            | none => none
            | some (_, _, data3) => some data3
  | _, _ => none

/-- The recursion `mergeSort(data, left, right)`, generic in the element type;
`fuel` bounds the depth of the recursion. -/
def mergeSortWith {α : Type} (le : α → α → Bool) (dflt : α) :
    Nat → List α → Int → Int → Option (List α)
  | 0, _, _, _ => none
  | fuel + 1, data, left, right =>
    if left < right then
      let middle := wrap32 (left + (wrap32 (right - left)).tdiv 2)
      match mergeSortWith le dflt fuel data left middle with
      | none => none
      | some data1 =>
        match mergeSortWith le dflt fuel data1 (wrap32 (middle + 1)) right with
        | none => none
        | some data2 => mergeWith le dflt data2 left middle right
    else some data

/-- The recursion `parallelMergeSort(data, left, right)`, generic in the element
type.  The left half is a task launched with `std::async`, the right half is
sorted by the calling thread, and `merge` runs after `leftFuture.get()`.  The
two halves are run as whole units in the order that `sched left right` picks
for this fork: `true` lets the launched left task finish first, `false` lets
the calling thread finish the right half first. -/
def parallelMergeSortWith {α : Type} (le : α → α → Bool) (dflt : α)
    (sched : Int → Int → Bool) : Nat → List α → Int → Int → Option (List α)
  | 0, _, _, _ => none
  | fuel + 1, data, left, right =>
    if left < right then
      let middle := wrap32 (left + (wrap32 (right - left)).tdiv 2)
      if sched left right then
        match parallelMergeSortWith le dflt sched fuel data left middle with
        | none => none
        | some data1 =>
          match parallelMergeSortWith le dflt sched fuel data1 (wrap32 (middle + 1)) right with
          | none => none
          | some data2 => mergeWith le dflt data2 left middle right
      else
        match parallelMergeSortWith le dflt sched fuel data (wrap32 (middle + 1)) right with
        | none => none
        | some data1 =>
          match parallelMergeSortWith le dflt sched fuel data1 left middle with
          | none => none
          | some data2 => mergeWith le dflt data2 left middle right
    else some data

/-- The entry point `sort(data)` of the sequential sorter, generic in the element
type.  The recursion on a range of `w` elements is at most `w` calls deep, so
`data.size() + 1` is enough fuel. -/
def sortWith {α : Type} (le : α → α → Bool) (dflt : α) (data : List α) : Option (List α) :=
  mergeSortWith le dflt (data.length + 1) data 0 (sizeMinusOne data.length)

/-- The entry point `sort(data)` of the parallel sorter, generic in the element type. -/
def parallelSortWith {α : Type} (le : α → α → Bool) (dflt : α) (sched : Int → Int → Bool)
    (data : List α) : Option (List α) :=
  parallelMergeSortWith le dflt sched (data.length + 1) data 0 (sizeMinusOne data.length)

/-- The value `n1 = middle - left + 1` that `merge` computes for the length of
`leftArray`. -/
def leftLen (left middle : Int) : Int := wrap32 (wrap32 (middle - left) + 1)

/-- The value `n2 = right - middle` that `merge` computes for the length of
`rightArray`. -/
def rightLen (middle right : Int) : Int := wrap32 (right - middle)

/-- The routine `merge(data, left, middle, right)` once more, this time returning the
values that `i`, `j` and `k` hold when the last loop ends, next to the updated
`data`. -/
def mergeStateWith {α : Type} (le : α → α → Bool) (dflt : α)
    (data : List α) (left middle right : Int) : Option (Int × Int × Int × List α) :=
  let n1 := leftLen left middle
  let n2 := rightLen middle right
  let fuel := data.length + 1
  match allocVec dflt n1, allocVec dflt n2 with
  | some leftArray0, some rightArray0 =>
    match copyLoop data left n1 fuel 0 leftArray0 with
    | none => none
    | some leftArray =>
      match copyLoop data (wrap32 (middle + 1)) n2 fuel 0 rightArray0 with
      | none => none
      | some rightArray =>
        match mergeLoop le leftArray rightArray n1 n2 fuel 0 0 left data with
        | none => none
        | some (i, j, k, data1) =>
          match drainLoop leftArray n1 fuel i k data1 with
          | none => none
          | some (i2, k2, data2) =>
            match drainLoop rightArray n2 fuel j k2 data2 with
            | none => none
            | some (j3, k3, data3) => some (i2, j3, k3, data3)
  | _, _ => none

/-- The value `middle = left + (right - left) / 2` that `mergeSort` and
`parallelMergeSort` compute. -/
def middleOf (left right : Int) : Int := wrap32 (left + (wrap32 (right - left)).tdiv 2)

/-- The sub-range `data[lo..hi]`, both ends included, of a vector. -/
def slice {α : Type} (data : List α) (lo hi : Int) : List α :=
  (data.drop lo.toNat).take (hi - lo + 1).toNat

/-- The vector `out` has the length of `data` and agrees with it at every index
below `left` and at every index above `right`. -/
def FrameOutside {α : Type} (data out : List α) (left right : Int) : Prop :=
  out.length = data.length ∧
    ∀ i : Nat, ((i : Int) < left ∨ right < (i : Int)) → out[i]? = data[i]?

/-- A sequence is ascending: `out[i] <= out[j]` for all indices `i < j`. -/
def Ascending (out : List Int) : Prop :=
  ∀ (i j : Nat) (hij : i < j) (hj : j < out.length), out[i] ≤ out[j]

/-- A sequence is descending (non-increasing): `out[j] <= out[i]` for all indices `i < j`. -/
def Descending (out : List Int) : Prop :=
  ∀ (i j : Nat) (hij : i < j) (hj : j < out.length), out[j] ≤ out[i]

/-- The comparison `a <= b` on `int`. -/
def intLe (a b : Int) : Bool := decide (a ≤ b)

/-- The comparison of two tagged elements: by key only. -/
def keyLe {τ : Type} (a b : Int × τ) : Bool := decide (a.1 ≤ b.1)

end MergeSortModel

namespace SequentialMergeSort
open MergeSortModel

/-- `SequentialMergeSort::merge` on `std::vector<int>`. -/
def merge (data : List Int) (left middle right : Int) : Option (List Int) :=
  mergeWith intLe 0 data left middle right

/-- `SequentialMergeSort::mergeSort` on `std::vector<int>`. -/
def mergeSort (fuel : Nat) (data : List Int) (left right : Int) : Option (List Int) :=
  mergeSortWith intLe 0 fuel data left right

/-- `SequentialMergeSort::sort` on `std::vector<int>`. -/
def sort (data : List Int) : Option (List Int) :=
  sortWith intLe 0 data

/-- The sequential sorter run on elements that carry a key and a tag and are
compared by key only; `tag0` is the tag of a value-initialised element. -/
def sortTagged {τ : Type} (tag0 : τ) (data : List (Int × τ)) : Option (List (Int × τ)) :=
  sortWith keyLe (0, tag0) data

/-- `SequentialMergeSort::merge`, returning the final `i`, `j`, `k` as well. -/
def mergeState (data : List Int) (left middle right : Int) :
    Option (Int × Int × Int × List Int) :=
  mergeStateWith intLe 0 data left middle right

end SequentialMergeSort

namespace ParallelMergeSort
open MergeSortModel

/-- `ParallelMergeSort::merge` on `std::vector<int>`. -/
def merge (data : List Int) (left middle right : Int) : Option (List Int) :=
  mergeWith intLe 0 data left middle right

/-- `ParallelMergeSort::parallelMergeSort` on `std::vector<int>`. -/
def parallelMergeSort (sched : Int → Int → Bool) (fuel : Nat) (data : List Int)
    (left right : Int) : Option (List Int) :=
  parallelMergeSortWith intLe 0 sched fuel data left right

/-- `ParallelMergeSort::sort` on `std::vector<int>`. -/
def sort (sched : Int → Int → Bool) (data : List Int) : Option (List Int) :=
  parallelSortWith intLe 0 sched data

/-- The parallel sorter run on elements that carry a key and a tag and are
compared by key only. -/
def sortTagged {τ : Type} (tag0 : τ) (sched : Int → Int → Bool) (data : List (Int × τ)) :
    Option (List (Int × τ)) :=
  parallelSortWith keyLe (0, tag0) sched data

/-- `ParallelMergeSort::merge`, returning the final `i`, `j`, `k` as well. -/
def mergeState (data : List Int) (left middle right : Int) :
    Option (Int × Int × Int × List Int) :=
  mergeStateWith intLe 0 data left middle right

end ParallelMergeSort

namespace MergeSortModel

/-! ## Machine arithmetic -/

theorem wrap32_of_range (x : Int) (h1 : -2147483648 ≤ x) (h2 : x < 2147483648) :
    wrap32 x = x := by
  unfold wrap32; omega

theorem wrap32_natCast (n : Nat) (h : n < 2147483648) : wrap32 (n : Int) = (n : Int) := by
  unfold wrap32; omega

theorem wrap32_succ_natCast (n : Nat) (h : n + 1 < 2147483648) :
    wrap32 ((n : Int) + 1) = ((n + 1 : Nat) : Int) := by
  unfold wrap32; omega

theorem wrap32_wrap32_succ (x : Int) : wrap32 (wrap32 x + 1) = wrap32 (x + 1) := by
  unfold wrap32; omega

/-! ## Vector accesses -/

theorem getElem?_mid {α : Type} (p t : List α) (x : α) : (p ++ x :: t)[p.length]? = some x := by
  rw [List.getElem?_append_right (Nat.le_refl _)]
  simp

theorem set_mid {α : Type} (p t : List α) (x y : α) :
    (p ++ y :: t).set p.length x = p ++ x :: t := by
  simp

theorem readAt_mid {α : Type} (p t : List α) (x : α) (i : Int) (h : i = (p.length : Int)) :
    readAt (p ++ x :: t) i = some x := by
  subst h
  simp only [readAt, Int.toNat_ofNat, Int.natCast_nonneg, if_true]
  exact getElem?_mid p t x

theorem writeAt_mid {α : Type} (p t : List α) (x y : α) (i : Int) (h : i = (p.length : Int)) :
    writeAt (p ++ y :: t) i x = some (p ++ x :: t) := by
  subst h
  simp [writeAt]

theorem allocVec_natCast {α : Type} (dflt : α) (n : Nat) :
    allocVec dflt (n : Int) = some (List.replicate n dflt) := by
  simp [allocVec]

theorem allocVec_neg {α : Type} (dflt : α) (n : Int) (h : n < 0) :
    allocVec dflt n = (none : Option (List α)) := by
  simp [allocVec, h]

/-! ## The copy loops -/

theorem copyLoop_spec {α : Type} (base n : Int) (rest : List α) :
    ∀ (fuel : Nat) (p q done junk : List α),
      junk.length = rest.length →
      n = ((done.length + rest.length : Nat) : Int) →
      (rest ≠ [] → base + (done.length : Int) = (p.length : Int)) →
      p.length + rest.length ≤ 2147483648 →
      done.length + rest.length ≤ 2147483647 →
      rest.length < fuel →
      copyLoop (p ++ rest ++ q) base n fuel (done.length : Int) (done ++ junk)
        = some (done ++ rest) := by
  induction rest with
  | nil =>
    intro fuel p q done junk hj hn _ _ _ hf
    obtain ⟨f, rfl⟩ : ∃ f, fuel = f + 1 := ⟨fuel - 1, by simp at hf; omega⟩
    have hj0 : junk = [] := List.length_eq_zero.mp (by simpa using hj)
    subst hj0
    have : ¬ ((done.length : Int) < n) := by simp at hn; omega
    simp [copyLoop, this]
  | cons x rest ih =>
    intro fuel p q done junk hj hn hb hp hd hf
    obtain ⟨f, rfl⟩ : ∃ f, fuel = f + 1 := ⟨fuel - 1, by simp at hf; omega⟩
    obtain ⟨y, junk1, rfl⟩ : ∃ y junk1, junk = y :: junk1 := by
      cases junk with
      | nil => simp at hj
      | cons y junk1 => exact ⟨y, junk1, rfl⟩
    have hlt : (done.length : Int) < n := by simp at hn; omega
    have hb1 := hb (by simp)
    simp only [List.length_cons] at hj hn hp hd hf
    have hidx : wrap32 (base + (done.length : Int)) = (p.length : Int) := by
      rw [hb1]; exact wrap32_natCast _ (by omega)
    have hnext : wrap32 ((done.length : Int) + 1) = (((done ++ [x]).length : Nat) : Int) := by
      rw [wrap32_succ_natCast _ (by omega)]; simp
    have hread : readAt (p ++ (x :: rest) ++ q) (wrap32 (base + (done.length : Int))) = some x := by
      rw [List.append_assoc, List.cons_append]
      exact readAt_mid _ _ _ _ hidx
    have hwrite : writeAt (done ++ y :: junk1) (done.length : Int) x = some (done ++ x :: junk1) :=
      writeAt_mid _ _ _ _ _ rfl
    simp only [copyLoop, if_pos hlt, hread, hwrite, hnext]
    have hdata : p ++ (x :: rest) ++ q = (p ++ [x]) ++ rest ++ q := by simp
    have harr : done ++ x :: junk1 = (done ++ [x]) ++ junk1 := by simp
    rw [hdata, harr, ih f (p ++ [x]) q (done ++ [x]) junk1 (by omega)
      (by rw [hn]; simp; omega) (by intro _; simp; omega) (by simp; omega) (by simp; omega)
      (by omega)]
    simp

/-! ## The loops that write back into `data` -/

theorem drainLoop_spec {α : Type} (n : Int) (rest : List α) :
    ∀ (fuel : Nat) (p q slot done : List α),
      slot.length = rest.length →
      n = ((done.length + rest.length : Nat) : Int) →
      p.length + rest.length ≤ 2147483648 →
      done.length + rest.length ≤ 2147483647 →
      rest.length < fuel →
      drainLoop (done ++ rest) n fuel (done.length : Int) (wrap32 (p.length : Int))
          (p ++ slot ++ q)
        = some (n, wrap32 ((p.length + rest.length : Nat) : Int), p ++ rest ++ q) := by
  induction rest with
  | nil =>
    intro fuel p q slot done hs hn _ _ hf
    obtain ⟨f, rfl⟩ : ∃ f, fuel = f + 1 := ⟨fuel - 1, by simp at hf; omega⟩
    have hs0 : slot = [] := List.length_eq_zero.mp (by simpa using hs)
    subst hs0
    have h1 : ¬ ((done.length : Int) < n) := by simp at hn; omega
    have h2 : n = (done.length : Int) := by simp at hn; omega
    rw [drainLoop, if_neg h1, h2]
    simp only [List.length_nil, Nat.add_zero]
  | cons x rest ih =>
    intro fuel p q slot done hs hn hp hd hf
    obtain ⟨f, rfl⟩ : ∃ f, fuel = f + 1 := ⟨fuel - 1, by simp at hf; omega⟩
    obtain ⟨y, slot1, rfl⟩ : ∃ y slot1, slot = y :: slot1 := by
      cases slot with
      | nil => simp at hs
      | cons y slot1 => exact ⟨y, slot1, rfl⟩
    simp only [List.length_cons] at hs hn hp hd hf
    have hlt : (done.length : Int) < n := by omega
    have hk : wrap32 (p.length : Int) = (p.length : Int) := wrap32_natCast _ (by omega)
    have hread : readAt (done ++ x :: rest) (done.length : Int) = some x :=
      readAt_mid _ _ _ _ rfl
    have hwrite : writeAt (p ++ (y :: slot1) ++ q) (wrap32 (p.length : Int)) x
        = some (p ++ x :: (slot1 ++ q)) := by
      rw [List.append_assoc, List.cons_append]
      exact writeAt_mid _ _ _ _ _ hk
    have hi : wrap32 ((done.length : Int) + 1) = (((done ++ [x]).length : Nat) : Int) := by
      rw [wrap32_succ_natCast _ (by omega)]; simp
    have hk1 : wrap32 (wrap32 (p.length : Int) + 1) = wrap32 (((p ++ [x]).length : Nat) : Int) := by
      rw [wrap32_wrap32_succ]; simp
    simp only [drainLoop, if_pos hlt, hread, hwrite, hi, hk1]
    have hdata : p ++ x :: (slot1 ++ q) = (p ++ [x]) ++ slot1 ++ q := by simp
    have harr : done ++ x :: rest = (done ++ [x]) ++ rest := by simp
    rw [hdata, harr, ih f (p ++ [x]) q slot1 (done ++ [x]) (by omega)
      (by rw [hn]; simp; omega) (by simp; omega) (by simp; omega) (by omega)]
    have e1 : (p ++ [x]).length + rest.length = p.length + (x :: rest).length := by
      simp only [List.length_append, List.length_cons, List.length_nil]; omega
    rw [e1]
    simp only [List.append_assoc, List.singleton_append, List.cons_append, List.nil_append]

/-- The state reached by the three `while` loops of `merge` when they are started
with `ld` and `rd` already consumed: the slot behind `p` receives the merge of
what is left of the two scratch vectors. -/
theorem mergeLoops_spec {α : Type} (le : α → α → Bool) (n1 n2 : Int) (drainFuel : Nat) :
    ∀ (fuel : Nat) (ld lr rd rr p slot q : List α),
      slot.length = lr.length + rr.length →
      n1 = ((ld.length + lr.length : Nat) : Int) →
      n2 = ((rd.length + rr.length : Nat) : Int) →
      p.length + (lr.length + rr.length) ≤ 2147483648 →
      ld.length + lr.length ≤ 2147483647 →
      rd.length + rr.length ≤ 2147483647 →
      lr.length + rr.length < fuel →
      lr.length < drainFuel →
      rr.length < drainFuel →
      ∃ i j k d1 i2 k2 d2 j3 k3,
        mergeLoop le (ld ++ lr) (rd ++ rr) n1 n2 fuel (ld.length : Int) (rd.length : Int)
            (wrap32 (p.length : Int)) (p ++ slot ++ q) = some (i, j, k, d1) ∧
        drainLoop (ld ++ lr) n1 drainFuel i k d1 = some (i2, k2, d2) ∧
        drainLoop (rd ++ rr) n2 drainFuel j k2 d2
          = some (j3, k3, p ++ List.merge lr rr le ++ q) := by
  intro fuel
  induction fuel with
  | zero => intro ld lr rd rr p slot q _ _ _ _ _ _ hf; omega
  | succ f ih =>
    intro ld lr rd rr p slot q hs h1 h2 hp hl hr hf hdl hdr
    by_cases hcond : (ld.length : Int) < n1 ∧ (rd.length : Int) < n2
    · -- both scratch vectors still hold an element
      obtain ⟨x, lr1, rfl⟩ : ∃ x lr1, lr = x :: lr1 := by
        cases lr with
        | nil => simp at h1; omega
        | cons x lr1 => exact ⟨x, lr1, rfl⟩
      obtain ⟨y, rr1, rfl⟩ : ∃ y rr1, rr = y :: rr1 := by
        cases rr with
        | nil => simp at h2; omega
        | cons y rr1 => exact ⟨y, rr1, rfl⟩
      obtain ⟨s, slot1, rfl⟩ : ∃ s slot1, slot = s :: slot1 := by
        cases slot with
        | nil => simp at hs; omega
        | cons s slot1 => exact ⟨s, slot1, rfl⟩
      simp only [List.length_cons] at hs h1 h2 hp hl hr hf hdl hdr
      have hk : wrap32 (p.length : Int) = (p.length : Int) := wrap32_natCast _ (by omega)
      have hra : readAt (ld ++ x :: lr1) (ld.length : Int) = some x := readAt_mid _ _ _ _ rfl
      have hrb : readAt (rd ++ y :: rr1) (rd.length : Int) = some y := readAt_mid _ _ _ _ rfl
      by_cases hle : le x y = true
      · have hw : writeAt (p ++ (s :: slot1) ++ q) (wrap32 (p.length : Int)) x
            = some (p ++ x :: (slot1 ++ q)) := by
          rw [List.append_assoc, List.cons_append]
          exact writeAt_mid _ _ _ _ _ hk
        have hi : wrap32 ((ld.length : Int) + 1) = (((ld ++ [x]).length : Nat) : Int) := by
          rw [wrap32_succ_natCast _ (by omega)]; simp
        have hk1x : wrap32 (wrap32 (p.length : Int) + 1)
            = wrap32 (((p ++ [x]).length : Nat) : Int) := by
          rw [wrap32_wrap32_succ]; simp
        obtain ⟨i, j, k, d1, i2, k2, d2, j3, k3, e1, e2, e3⟩ :=
          ih (ld ++ [x]) lr1 rd (y :: rr1) (p ++ [x]) slot1 q
            (by simp only [List.length_cons]; omega)
            (by rw [h1]; simp; omega) (by rw [h2]; simp)
            (by simp; omega) (by simp; omega) (by simp; omega)
            (by simp only [List.length_cons]; omega) (by omega) (by simp only [List.length_cons]; omega)
        refine ⟨i, j, k, d1, i2, k2, d2, j3, k3, ?_, ?_, ?_⟩
        · rw [mergeLoop, if_pos hcond]
          simp only [hra, hrb, hle, if_true, hw, hi, hk1x]
          have hdata : p ++ x :: (slot1 ++ q) = (p ++ [x]) ++ slot1 ++ q := by simp
          have harr : ld ++ x :: lr1 = (ld ++ [x]) ++ lr1 := by simp
          rw [hdata, harr]
          exact e1
        · have harr : ld ++ x :: lr1 = (ld ++ [x]) ++ lr1 := by simp
          rw [harr]; exact e2
        · rw [e3, List.cons_merge_cons_pos _ _ _ hle]
          simp
      · have hw : writeAt (p ++ (s :: slot1) ++ q) (wrap32 (p.length : Int)) y
            = some (p ++ y :: (slot1 ++ q)) := by
          rw [List.append_assoc, List.cons_append]
          exact writeAt_mid _ _ _ _ _ hk
        have hj : wrap32 ((rd.length : Int) + 1) = (((rd ++ [y]).length : Nat) : Int) := by
          rw [wrap32_succ_natCast _ (by omega)]; simp
        have hk1y : wrap32 (wrap32 (p.length : Int) + 1)
            = wrap32 (((p ++ [y]).length : Nat) : Int) := by
          rw [wrap32_wrap32_succ]; simp
        obtain ⟨i, j, k, d1, i2, k2, d2, j3, k3, e1, e2, e3⟩ :=
          ih ld (x :: lr1) (rd ++ [y]) rr1 (p ++ [y]) slot1 q
            (by simp only [List.length_cons]; omega)
            (by rw [h1]; simp) (by rw [h2]; simp; omega)
            (by simp; omega) (by simp; omega) (by simp; omega)
            (by simp only [List.length_cons]; omega) (by simp only [List.length_cons]; omega) (by omega)
        refine ⟨i, j, k, d1, i2, k2, d2, j3, k3, ?_, ?_, ?_⟩
        · rw [mergeLoop, if_pos hcond]
          simp only [hra, hrb, hle, if_false, hw, hj, hk1y]
          have hdata : p ++ y :: (slot1 ++ q) = (p ++ [y]) ++ slot1 ++ q := by simp
          have harr : rd ++ y :: rr1 = (rd ++ [y]) ++ rr1 := by simp
          rw [hdata, harr]
          exact e1
        · exact e2
        · have harr : rd ++ y :: rr1 = (rd ++ [y]) ++ rr1 := by simp
          rw [harr, e3, List.cons_merge_cons_neg _ _ _ hle]
          simp
    · -- one scratch vector is exhausted: the two trailing loops copy the rest
      have hmerge : List.merge lr rr le = lr ++ rr := by
        cases lr with
        | nil => simp
        | cons x lr1 =>
          cases rr with
          | nil => simp
          | cons y rr1 =>
            exfalso; apply hcond
            simp only [List.length_cons] at h1 h2
            constructor <;> omega
      obtain ⟨s1, s2, rfl, hs1, hs2⟩ : ∃ s1 s2, slot = s1 ++ s2 ∧ s1.length = lr.length
          ∧ s2.length = rr.length :=
        ⟨slot.take lr.length, slot.drop lr.length, (List.take_append_drop _ _).symm,
          by simp; omega, by simp; omega⟩
      refine ⟨(ld.length : Int), (rd.length : Int), wrap32 (p.length : Int), p ++ (s1 ++ s2) ++ q,
        n1, wrap32 ((p.length + lr.length : Nat) : Int), p ++ lr ++ (s2 ++ q),
        n2, wrap32 (((p ++ lr).length + rr.length : Nat) : Int), ?_, ?_, ?_⟩
      · rw [mergeLoop, if_neg hcond]
      · have hd : p ++ (s1 ++ s2) ++ q = p ++ s1 ++ (s2 ++ q) := by simp
        rw [hd]
        exact drainLoop_spec n1 lr drainFuel p (s2 ++ q) s1 ld hs1 h1 (by omega) hl hdl
      · have hk : wrap32 (((p.length + lr.length : Nat)) : Int)
            = wrap32 (((p ++ lr).length : Nat) : Int) := by simp
        have hd : p ++ lr ++ (s2 ++ q) = (p ++ lr) ++ s2 ++ q := by simp
        rw [hk, hd, drainLoop_spec n2 rr drainFuel (p ++ lr) q s2 rd hs2 h2 (by simp; omega) hr hdr,
          hmerge]
        simp

/-! ## `merge` computes the two-way merge of the two halves of its range -/

theorem mergeWith_append {α : Type} (le : α → α → Bool) (dflt : α) (a l r b : List α)
    (left middle right : Int)
    (hleft : left = (a.length : Int))
    (hmid : middle = (a.length : Int) + (l.length : Int) - 1)
    (hright : right = (a.length : Int) + (l.length : Int) + (r.length : Int) - 1)
    (hl1 : 1 ≤ l.length) (hl2 : l.length ≤ 2147483647)
    (htot : a.length + l.length + r.length ≤ 2147483648) :
    mergeWith le dflt (a ++ l ++ r ++ b) left middle right
      = some (a ++ List.merge l r le ++ b) := by
  have hn1 : wrap32 (wrap32 (middle - left) + 1) = ((l.length : Nat) : Int) := by
    rw [hmid, hleft]; unfold wrap32; omega
  have hn2 : wrap32 (right - middle) = ((r.length : Nat) : Int) := by
    rw [hmid, hright]; unfold wrap32; omega
  have hlen : (a ++ l ++ r ++ b).length = a.length + l.length + r.length + b.length := by
    simp only [List.length_append]
  have hcopy1 : copyLoop (a ++ l ++ r ++ b) left (l.length : Int) ((a ++ l ++ r ++ b).length + 1)
      0 (List.replicate l.length dflt) = some l := by
    have h := copyLoop_spec left (l.length : Int) l ((a ++ l ++ r ++ b).length + 1) a (r ++ b) []
      (List.replicate l.length dflt) (by simp) (by simp) (by intro _; rw [hleft]; simp)
      (by omega) (by simp; omega) (by rw [hlen]; omega)
    simpa using h
  have hcopy2 : copyLoop (a ++ l ++ r ++ b) (wrap32 (middle + 1)) (r.length : Int)
      ((a ++ l ++ r ++ b).length + 1) 0 (List.replicate r.length dflt) = some r := by
    have h := copyLoop_spec (wrap32 (middle + 1)) (r.length : Int) r
      ((a ++ l ++ r ++ b).length + 1) (a ++ l) b []
      (List.replicate r.length dflt) (by simp) (by simp)
      (by
        intro hr
        have : 1 ≤ r.length := List.length_pos.mpr hr
        rw [hmid]; simp only [List.length_nil, List.length_append]
        unfold wrap32; omega)
      (by simp only [List.length_append]; omega) (by simp; omega) (by rw [hlen]; omega)
    simpa using h
  have hk0 : left = wrap32 (a.length : Int) := by
    rw [hleft, wrap32_natCast _ (by omega)]
  obtain ⟨i, j, k, d1, i2, k2, d2, j3, k3, e1, e2, e3⟩ :=
    mergeLoops_spec le (l.length : Int) (r.length : Int) ((a ++ l ++ r ++ b).length + 1)
      ((a ++ l ++ r ++ b).length + 1) [] l [] r a (l ++ r) b
      (by simp) (by simp) (by simp) (by omega) (by simp; omega) (by simp; omega)
      (by rw [hlen]; omega) (by rw [hlen]; omega) (by rw [hlen]; omega)
  have e1x : mergeLoop le l r (l.length : Int) (r.length : Int) ((a ++ l ++ r ++ b).length + 1)
      0 0 left (a ++ l ++ r ++ b) = some (i, j, k, d1) := by
    rw [hk0]; simpa using e1
  have e2x : drainLoop l (l.length : Int) ((a ++ l ++ r ++ b).length + 1) i k d1
      = some (i2, k2, d2) := by simpa using e2
  have e3x : drainLoop r (r.length : Int) ((a ++ l ++ r ++ b).length + 1) j k2 d2
      = some (j3, k3, a ++ List.merge l r le ++ b) := by simpa using e3
  unfold mergeWith
  simp only [hn1, hn2, allocVec_natCast, hcopy1, hcopy2, e1x, e2x, e3x]

/-! ## The recursion computes the stable merge sort of its range -/

theorem mergeSort_unfold {α : Type} (le : α → α → Bool) (xs : List α) (h : 2 ≤ xs.length) :
    List.mergeSort xs le
      = List.merge (List.mergeSort (xs.take ((xs.length + 1) / 2)) le)
          (List.mergeSort (xs.drop ((xs.length + 1) / 2)) le) le := by
  match xs, h with
  | a :: b :: t, _ =>
    rw [List.mergeSort]
    simp only [List.splitInTwo, List.splitAt_eq]

theorem mergeSort_short {α : Type} (le : α → α → Bool) (xs : List α) (h : xs.length ≤ 1) :
    List.mergeSort xs le = xs := by
  match xs, h with
  | [], _ => simp
  | [a], _ => simp

/-- The value of `middle` on a range that holds `n ≥ 2` elements behind `a`. -/
theorem middle_eq (left right : Int) (a n : Nat)
    (hleft : left = (a : Int)) (hright : right = (a : Int) + (n : Int) - 1)
    (hn : 2 ≤ n) (htot : a + n ≤ 2147483648) :
    wrap32 (left + (wrap32 (right - left)).tdiv 2) = (a : Int) + (((n + 1) / 2 : Nat) : Int) - 1 := by
  have h1 : wrap32 (right - left) = (n : Int) - 1 := by
    rw [hleft, hright]; unfold wrap32; omega
  rw [h1, Int.tdiv_eq_ediv (by omega) (by omega), hleft]
  unfold wrap32; omega

theorem mergeSortWith_base {α : Type} (le : α → α → Bool) (dflt : α) (fuel : Nat)
    (data : List α) (left right : Int) (h : ¬ left < right) :
    mergeSortWith le dflt (fuel + 1) data left right = some data := by
  rw [mergeSortWith, if_neg h]

theorem parallelMergeSortWith_base {α : Type} (le : α → α → Bool) (dflt : α)
    (sched : Int → Int → Bool) (fuel : Nat)
    (data : List α) (left right : Int) (h : ¬ left < right) :
    parallelMergeSortWith le dflt sched (fuel + 1) data left right = some data := by
  rw [parallelMergeSortWith, if_neg h]

/-- The facts about the two halves `x.take h` and `x.drop h`, `h = (|x| + 1) / 2`,
that the recursive step needs. -/
theorem halves_facts {α : Type} (x : List α) (hx : 2 ≤ x.length) :
    x = x.take ((x.length + 1) / 2) ++ x.drop ((x.length + 1) / 2) ∧
    (x.take ((x.length + 1) / 2)).length = (x.length + 1) / 2 ∧
    (x.drop ((x.length + 1) / 2)).length = x.length - (x.length + 1) / 2 ∧
    1 ≤ (x.length + 1) / 2 ∧ (x.length + 1) / 2 < x.length := by
  refine ⟨(List.take_append_drop _ _).symm, ?_, ?_, ?_, ?_⟩
  · rw [List.length_take]; omega
  · rw [List.length_drop]
  · omega
  · omega

theorem mergeSortWith_append {α : Type} (le : α → α → Bool) (dflt : α) :
    ∀ (fuel : Nat) (a x b : List α) (left right : Int),
      left = (a.length : Int) →
      right = (a.length : Int) + (x.length : Int) - 1 →
      a.length + x.length ≤ 2147483648 →
      x.length < fuel →
      mergeSortWith le dflt fuel (a ++ x ++ b) left right
        = some (a ++ List.mergeSort x le ++ b) := by
  intro fuel
  induction fuel with
  | zero => intro a x b left right _ _ _ hf; omega
  | succ f ih =>
    intro a x b left right hleft hright htot hf
    by_cases hx : x.length ≤ 1
    · rw [mergeSortWith_base le dflt f _ left right (by omega), mergeSort_short le x hx]
    · have hx2 : 2 ≤ x.length := by omega
      obtain ⟨hsplit, hlen1, hlen2, hh1, hh2⟩ := halves_facts x hx2
      generalize hx1 : x.take ((x.length + 1) / 2) = x1 at hsplit hlen1
      generalize hx2' : x.drop ((x.length + 1) / 2) = x2 at hsplit hlen2
      have hmid := middle_eq left right a.length x.length hleft hright hx2 htot
      have hlt : left < right := by omega
      have hmid1 : wrap32 (wrap32 (left + (wrap32 (right - left)).tdiv 2) + 1)
          = ((a ++ List.mergeSort x1 le).length : Int) := by
        rw [hmid]; simp only [List.length_append, List.length_mergeSort, hlen1]
        unfold wrap32; omega
      have hstep1 := ih a x1 (x2 ++ b) left
        (wrap32 (left + (wrap32 (right - left)).tdiv 2)) hleft
        (by rw [hmid, hlen1]) (by omega) (by omega)
      have hstep2 := ih (a ++ List.mergeSort x1 le) x2 b
        (wrap32 (wrap32 (left + (wrap32 (right - left)).tdiv 2) + 1)) right hmid1
        (by rw [hright]; simp only [List.length_append, List.length_mergeSort, hlen1, hlen2]
            omega)
        (by simp only [List.length_append, List.length_mergeSort, hlen1, hlen2]; omega)
        (by omega)
      have hstep3 := mergeWith_append le dflt a (List.mergeSort x1 le) (List.mergeSort x2 le) b
        left (wrap32 (left + (wrap32 (right - left)).tdiv 2)) right hleft
        (by rw [hmid]; simp only [List.length_mergeSort, hlen1])
        (by rw [hright]; simp only [List.length_mergeSort, hlen1, hlen2]; omega)
        (by simp only [List.length_mergeSort, hlen1]; omega)
        (by simp only [List.length_mergeSort, hlen1]; omega)
        (by simp only [List.length_mergeSort, hlen1, hlen2]; omega)
      have hdata : a ++ x ++ b = a ++ x1 ++ (x2 ++ b) := by
        rw [hsplit]; simp only [List.append_assoc]
      have hdata2 : a ++ List.mergeSort x1 le ++ (x2 ++ b)
          = a ++ List.mergeSort x1 le ++ x2 ++ b := by
        simp only [List.append_assoc]
      rw [mergeSortWith, if_pos hlt]
      simp only []
      rw [hdata, hstep1]
      simp only []
      rw [hdata2, hstep2]
      simp only []
      rw [hstep3, mergeSort_unfold le x hx2, hx1, hx2']

theorem parallelMergeSortWith_append {α : Type} (le : α → α → Bool) (dflt : α)
    (sched : Int → Int → Bool) :
    ∀ (fuel : Nat) (a x b : List α) (left right : Int),
      left = (a.length : Int) →
      right = (a.length : Int) + (x.length : Int) - 1 →
      a.length + x.length ≤ 2147483648 →
      x.length < fuel →
      parallelMergeSortWith le dflt sched fuel (a ++ x ++ b) left right
        = some (a ++ List.mergeSort x le ++ b) := by
  intro fuel
  induction fuel with
  | zero => intro a x b left right _ _ _ hf; omega
  | succ f ih =>
    intro a x b left right hleft hright htot hf
    by_cases hx : x.length ≤ 1
    · rw [parallelMergeSortWith_base le dflt sched f _ left right (by omega),
        mergeSort_short le x hx]
    · have hx2 : 2 ≤ x.length := by omega
      obtain ⟨hsplit, hlen1, hlen2, hh1, hh2⟩ := halves_facts x hx2
      generalize hx1 : x.take ((x.length + 1) / 2) = x1 at hsplit hlen1
      generalize hx2' : x.drop ((x.length + 1) / 2) = x2 at hsplit hlen2
      have hmid := middle_eq left right a.length x.length hleft hright hx2 htot
      have hlt : left < right := by omega
      have hstep3 := mergeWith_append le dflt a (List.mergeSort x1 le) (List.mergeSort x2 le) b
        left (wrap32 (left + (wrap32 (right - left)).tdiv 2)) right hleft
        (by rw [hmid]; simp only [List.length_mergeSort, hlen1])
        (by rw [hright]; simp only [List.length_mergeSort, hlen1, hlen2]; omega)
        (by simp only [List.length_mergeSort, hlen1]; omega)
        (by simp only [List.length_mergeSort, hlen1]; omega)
        (by simp only [List.length_mergeSort, hlen1, hlen2]; omega)
      rw [parallelMergeSortWith, if_pos hlt]
      by_cases hs : sched left right = true
      · -- the launched left task completes before the right half is sorted
        have hmid1 : wrap32 (wrap32 (left + (wrap32 (right - left)).tdiv 2) + 1)
            = ((a ++ List.mergeSort x1 le).length : Int) := by
          rw [hmid]; simp only [List.length_append, List.length_mergeSort, hlen1]
          unfold wrap32; omega
        have hstep1 := ih a x1 (x2 ++ b) left
          (wrap32 (left + (wrap32 (right - left)).tdiv 2)) hleft
          (by rw [hmid, hlen1]) (by omega) (by omega)
        have hstep2 := ih (a ++ List.mergeSort x1 le) x2 b
          (wrap32 (wrap32 (left + (wrap32 (right - left)).tdiv 2) + 1)) right hmid1
          (by rw [hright]; simp only [List.length_append, List.length_mergeSort, hlen1, hlen2]
              omega)
          (by simp only [List.length_append, List.length_mergeSort, hlen1, hlen2]; omega)
          (by omega)
        have hdata : a ++ x ++ b = a ++ x1 ++ (x2 ++ b) := by
          rw [hsplit]; simp only [List.append_assoc]
        have hdata2 : a ++ List.mergeSort x1 le ++ (x2 ++ b)
            = a ++ List.mergeSort x1 le ++ x2 ++ b := by
          simp only [List.append_assoc]
        rw [if_pos hs, hdata, hstep1]
        simp only []
        rw [hdata2, hstep2]
        simp only []
        rw [hstep3, mergeSort_unfold le x hx2, hx1, hx2']
      · -- the calling thread completes the right half before the left task runs
        have hmid1 : wrap32 (wrap32 (left + (wrap32 (right - left)).tdiv 2) + 1)
            = ((a ++ x1).length : Int) := by
          rw [hmid]; simp only [List.length_append, hlen1]
          unfold wrap32; omega
        have hstep1 := ih (a ++ x1) x2 b
          (wrap32 (wrap32 (left + (wrap32 (right - left)).tdiv 2) + 1)) right hmid1
          (by rw [hright]; simp only [List.length_append, hlen1, hlen2]; omega)
          (by simp only [List.length_append, hlen1, hlen2]; omega)
          (by omega)
        have hstep2 := ih a x1 (List.mergeSort x2 le ++ b) left
          (wrap32 (left + (wrap32 (right - left)).tdiv 2)) hleft
          (by rw [hmid, hlen1]) (by omega) (by omega)
        have hdata : a ++ x ++ b = a ++ x1 ++ x2 ++ b := by
          rw [hsplit]; simp only [List.append_assoc]
        have hdata2 : a ++ x1 ++ List.mergeSort x2 le ++ b
            = a ++ x1 ++ (List.mergeSort x2 le ++ b) := by
          simp only [List.append_assoc]
        have hdata3 : a ++ List.mergeSort x1 le ++ (List.mergeSort x2 le ++ b)
            = a ++ List.mergeSort x1 le ++ List.mergeSort x2 le ++ b := by
          simp only [List.append_assoc]
        rw [if_neg hs, hdata, hstep1]
        simp only []
        rw [hdata2, hstep2]
        simp only []
        rw [hdata3, hstep3, mergeSort_unfold le x hx2, hx1, hx2']

/-! ## The entry points -/

theorem sizeMinusOne_zero : sizeMinusOne 0 = -1 := by decide

theorem sizeMinusOne_small (n : Nat) (h1 : 1 ≤ n) (h2 : n ≤ 2147483648) :
    sizeMinusOne n = (n : Int) - 1 := by
  unfold sizeMinusOne wrap32; omega

theorem sortedLen_le (n : Nat) : sortedLen n ≤ n := by
  unfold sortedLen sizeMinusOne wrap32; omega

theorem sortedLen_le_bound (n : Nat) : sortedLen n ≤ 2147483648 := by
  unfold sortedLen sizeMinusOne wrap32; omega

theorem sortedLen_small (n : Nat) (h : n ≤ 2147483648) : sortedLen n = n := by
  unfold sortedLen sizeMinusOne wrap32; omega

theorem sizeMinusOne_eq_of_sortedLen (n : Nat) (h : 2 ≤ sortedLen n) :
    sizeMinusOne n = (sortedLen n : Int) - 1 := by
  unfold sortedLen at *; omega

theorem sortWith_eq {α : Type} (le : α → α → Bool) (dflt : α) (data : List α) :
    sortWith le dflt data
      = some (List.mergeSort (data.take (sortedLen data.length)) le
          ++ data.drop (sortedLen data.length)) := by
  unfold sortWith
  have hp := sortedLen_le data.length
  have hb := sortedLen_le_bound data.length
  have hlen : (data.take (sortedLen data.length)).length = sortedLen data.length := by
    rw [List.length_take]; omega
  by_cases h : sortedLen data.length ≤ 1
  · have hr : ¬ (0 : Int) < sizeMinusOne data.length := by
      unfold sortedLen at h; omega
    rw [mergeSortWith_base le dflt _ _ _ _ hr, mergeSort_short le _ (by omega),
      List.take_append_drop]
  · have h2 : 2 ≤ sortedLen data.length := by omega
    have hdata : data = [] ++ data.take (sortedLen data.length)
        ++ data.drop (sortedLen data.length) := by
      simp only [List.nil_append, List.take_append_drop]
    have := mergeSortWith_append le dflt (data.length + 1) []
      (data.take (sortedLen data.length)) (data.drop (sortedLen data.length))
      0 (sizeMinusOne data.length) (by simp)
      (by rw [sizeMinusOne_eq_of_sortedLen _ h2, hlen]; simp)
      (by rw [hlen]; simp only [List.length_nil]; omega) (by omega)
    rw [← hdata] at this
    rw [this, List.nil_append]

theorem parallelSortWith_eq {α : Type} (le : α → α → Bool) (dflt : α)
    (sched : Int → Int → Bool) (data : List α) :
    parallelSortWith le dflt sched data
      = some (List.mergeSort (data.take (sortedLen data.length)) le
          ++ data.drop (sortedLen data.length)) := by
  unfold parallelSortWith
  have hp := sortedLen_le data.length
  have hb := sortedLen_le_bound data.length
  have hlen : (data.take (sortedLen data.length)).length = sortedLen data.length := by
    rw [List.length_take]; omega
  by_cases h : sortedLen data.length ≤ 1
  · have hr : ¬ (0 : Int) < sizeMinusOne data.length := by
      unfold sortedLen at h; omega
    rw [parallelMergeSortWith_base le dflt sched _ _ _ _ hr, mergeSort_short le _ (by omega),
      List.take_append_drop]
  · have h2 : 2 ≤ sortedLen data.length := by omega
    have hdata : data = [] ++ data.take (sortedLen data.length)
        ++ data.drop (sortedLen data.length) := by
      simp only [List.nil_append, List.take_append_drop]
    have := parallelMergeSortWith_append le dflt sched (data.length + 1) []
      (data.take (sortedLen data.length)) (data.drop (sortedLen data.length))
      0 (sizeMinusOne data.length) (by simp)
      (by rw [sizeMinusOne_eq_of_sortedLen _ h2, hlen]; simp)
      (by rw [hlen]; simp only [List.length_nil]; omega) (by omega)
    rw [← hdata] at this
    rw [this, List.nil_append]

/-! ## Order facts -/

theorem ascending_iff_pairwise (out : List Int) :
    Ascending out ↔ out.Pairwise (fun a b => a ≤ b) := by
  rw [List.pairwise_iff_getElem]
  constructor
  · intro h i j hi hj hij
    exact h i j hij hj
  · intro h i j hij hj
    exact h i j (by omega) hj hij

theorem intLe_trans (a b c : Int) (h1 : intLe a b = true) (h2 : intLe b c = true) :
    intLe a c = true := by
  simp only [intLe, decide_eq_true_eq] at *; omega

theorem intLe_total (a b : Int) : (intLe a b || intLe b a) = true := by
  simp only [intLe, Bool.or_eq_true, decide_eq_true_eq]; omega

theorem pairwise_intLe_iff (xs : List Int) :
    xs.Pairwise (fun a b => intLe a b = true) ↔ xs.Pairwise (fun a b => a ≤ b) := by
  simp only [intLe, decide_eq_true_eq]

theorem keyLe_trans {τ : Type} (a b c : Int × τ) (h1 : keyLe a b = true)
    (h2 : keyLe b c = true) : keyLe a c = true := by
  simp only [keyLe, decide_eq_true_eq] at *; omega

theorem keyLe_total {τ : Type} (a b : Int × τ) : (keyLe a b || keyLe b a) = true := by
  simp only [keyLe, Bool.or_eq_true, decide_eq_true_eq]; omega

theorem sorted_mergeSort_int (xs : List Int) :
    (List.mergeSort xs intLe).Pairwise (fun a b => a ≤ b) :=
  (pairwise_intLe_iff _).mp (List.sorted_mergeSort intLe_trans intLe_total xs)

theorem mergeSort_int_of_sorted (xs : List Int) (h : xs.Pairwise (fun a b => a ≤ b)) :
    List.mergeSort xs intLe = xs :=
  List.mergeSort_of_sorted ((pairwise_intLe_iff _).mpr h)

/-- Two ascending lists with the same elements are equal. -/
theorem sorted_perm_unique (xs ys : List Int) (hp : xs.Perm ys)
    (hx : xs.Pairwise (fun a b => a ≤ b)) (hy : ys.Pairwise (fun a b => a ≤ b)) : xs = ys :=
  List.eq_of_perm_of_sorted hp hx hy

/-! ## Stability of the merge on tagged keys -/

theorem filter_key_eq_nil {τ : Type} (k : Int) (xs : List (Int × τ))
    (h : ∀ e ∈ xs, k < e.1) : xs.filter (fun e => decide (e.1 = k)) = [] := by
  rw [List.filter_eq_nil_iff]
  intro e he
  have := h e he
  simp only [decide_eq_true_eq]; omega

theorem merge_filter_key {τ : Type} (k : Int) :
    ∀ (xs ys : List (Int × τ)), xs.Pairwise (fun a b => keyLe a b = true) →
      (List.merge xs ys keyLe).filter (fun e => decide (e.1 = k))
        = xs.filter (fun e => decide (e.1 = k)) ++ ys.filter (fun e => decide (e.1 = k)) := by
  intro xs
  induction xs with
  | nil => intro ys _; simp
  | cons x xs ihx =>
    intro ys
    induction ys with
    | nil => intro _; simp
    | cons y ys ihy =>
      intro hs
      by_cases hle : keyLe x y = true
      · rw [List.cons_merge_cons_pos _ _ _ hle, List.filter_cons, ihx (y :: ys) hs.tail]
        by_cases hk : x.1 = k
        · simp [List.filter_cons, hk]
        · simp [List.filter_cons, hk]
      · rw [List.cons_merge_cons_neg _ _ _ hle, List.filter_cons, ihy hs]
        by_cases hk : y.1 = k
        · have hlt : y.1 < x.1 := by
            simp only [keyLe, decide_eq_true_eq] at hle; omega
          have hnil : (x :: xs).filter (fun e => decide (e.1 = k)) = [] := by
            apply filter_key_eq_nil
            intro e he
            rcases List.mem_cons.mp he with rfl | he
            · omega
            · have := List.rel_of_pairwise_cons hs he
              simp only [keyLe, decide_eq_true_eq] at this; omega
          rw [hnil]; simp [List.filter_cons, hk]
        · simp [List.filter_cons, hk]

theorem mergeSort_filter_key {τ : Type} (k : Int) :
    ∀ (n : Nat) (xs : List (Int × τ)), xs.length ≤ n →
      (List.mergeSort xs keyLe).filter (fun e => decide (e.1 = k))
        = xs.filter (fun e => decide (e.1 = k)) := by
  intro n
  induction n with
  | zero =>
    intro xs h
    rw [mergeSort_short keyLe xs (by omega)]
  | succ n ih =>
    intro xs h
    by_cases hx : xs.length ≤ 1
    · rw [mergeSort_short keyLe xs hx]
    · obtain ⟨hsplit, hlen1, hlen2, hh1, hh2⟩ := halves_facts xs (by omega)
      rw [mergeSort_unfold keyLe xs (by omega),
        merge_filter_key k _ _ (List.sorted_mergeSort keyLe_trans keyLe_total _),
        ih _ (by omega), ih _ (by omega), ← List.filter_append, ← hsplit]

/-! ## `merge` on an index range -/

theorem slice_natCast {α : Type} (data : List α) (l m : Nat) :
    slice data (l : Int) (m : Int) = (data.drop l).take (m + 1 - l) := by
  unfold slice
  have h1 : ((l : Int)).toNat = l := by omega
  have h2 : ((m : Int) - (l : Int) + 1).toNat = m + 1 - l := by omega
  rw [h1, h2]

theorem slice_sublist {α : Type} (data : List α) (lo hi : Int) :
    List.Sublist (slice data lo hi) data :=
  (List.take_sublist _ _).trans (List.drop_sublist _ _)

theorem drop_split {α : Type} (data : List α) (i k : Nat) :
    data.drop i = (data.drop i).take k ++ data.drop (i + k) := by
  rw [← List.drop_drop, List.take_append_drop]

/-- A vector cut at a range `l ≤ m ≤ r`: what precedes the range, its two halves,
and what follows it. -/
theorem range_split {α : Type} (data : List α) (l m r : Nat) (h1 : l ≤ m) (h2 : m ≤ r) :
    data = data.take l ++ (data.drop l).take (m + 1 - l) ++ (data.drop (m + 1)).take (r - m)
      ++ data.drop (r + 1) := by
  have e1 := drop_split data l (m + 1 - l)
  have e2 := drop_split data (m + 1) (r - m)
  have a1 : l + (m + 1 - l) = m + 1 := by omega
  have a2 : m + 1 + (r - m) = r + 1 := by omega
  rw [a1] at e1
  rw [a2] at e2
  calc data = data.take l ++ data.drop l := (List.take_append_drop l data).symm
    _ = data.take l ++ ((data.drop l).take (m + 1 - l) ++ data.drop (m + 1)) := by rw [← e1]
    _ = data.take l ++ ((data.drop l).take (m + 1 - l)
          ++ ((data.drop (m + 1)).take (r - m) ++ data.drop (r + 1))) := by rw [← e2]
    _ = _ := by simp only [List.append_assoc]

theorem mergeWith_range_nat {α : Type} (le : α → α → Bool) (dflt : α) (data : List α)
    (l m r : Nat) (h1 : l ≤ m) (h2 : m ≤ r) (h3 : r < data.length)
    (h4 : r ≤ 2147483647) (h5 : m - l < 2147483647) :
    mergeWith le dflt data (l : Int) (m : Int) (r : Int)
      = some (data.take l ++ List.merge ((data.drop l).take (m + 1 - l))
          ((data.drop (m + 1)).take (r - m)) le ++ data.drop (r + 1)) := by
  have hsplit := range_split data l m r h1 h2
  have ha : (data.take l).length = l := by rw [List.length_take]; omega
  have hl : ((data.drop l).take (m + 1 - l)).length = m + 1 - l := by
    rw [List.length_take, List.length_drop]; omega
  have hr : ((data.drop (m + 1)).take (r - m)).length = r - m := by
    rw [List.length_take, List.length_drop]; omega
  have key := mergeWith_append le dflt (data.take l) ((data.drop l).take (m + 1 - l))
    ((data.drop (m + 1)).take (r - m)) (data.drop (r + 1)) (l : Int) (m : Int) (r : Int)
    (by rw [ha]) (by rw [ha, hl]; omega) (by rw [ha, hl, hr]; omega)
    (by rw [hl]; omega) (by rw [hl]; omega) (by rw [ha, hl, hr]; omega)
  rw [← hsplit] at key
  exact key

theorem mergeWith_range {α : Type} (le : α → α → Bool) (dflt : α) (data : List α)
    (left middle right : Int) (h0 : 0 ≤ left) (h1 : left ≤ middle) (h2 : middle ≤ right)
    (h3 : right < (data.length : Int)) (h4 : right ≤ INT_MAX) (h5 : middle - left < INT_MAX) :
    mergeWith le dflt data left middle right
      = some (data.take left.toNat
          ++ List.merge (slice data left middle) (slice data (middle + 1) right) le
          ++ data.drop (right.toNat + 1)) := by
  unfold INT_MAX at h4 h5
  obtain ⟨l, rfl⟩ := Int.eq_ofNat_of_zero_le h0
  obtain ⟨m, rfl⟩ := Int.eq_ofNat_of_zero_le (by omega : 0 ≤ middle)
  obtain ⟨r, rfl⟩ := Int.eq_ofNat_of_zero_le (by omega : 0 ≤ right)
  have e1 : slice data ((m : Int) + 1) (r : Int) = (data.drop (m + 1)).take (r - m) := by
    have := slice_natCast data (m + 1) r
    have hsub : r + 1 - (m + 1) = r - m := by omega
    rw [hsub] at this
    rw [← this]; simp
  rw [slice_natCast data l m, e1, Int.toNat_ofNat, Int.toNat_ofNat]
  exact mergeWith_range_nat le dflt data l m r (by omega) (by omega) (by omega) (by omega)
    (by omega)

theorem length_slice {α : Type} (data : List α) (left right : Int)
    (h0 : 0 ≤ left) (h1 : left ≤ right + 1) (h3 : right < (data.length : Int)) :
    ((slice data left right).length : Int) = right - left + 1 := by
  unfold slice
  rw [List.length_take, List.length_drop]; omega

/-! ## Consequences for the two `int` sorters -/

theorem descending_iff_pairwise (out : List Int) :
    Descending out ↔ out.Pairwise (fun a b => b ≤ a) := by
  rw [List.pairwise_iff_getElem]
  constructor
  · intro h i j hi hj hij
    exact h i j hij hj
  · intro h i j hij hj
    exact h i j (by omega) hj hij

/-- Both entry points return the stable merge sort of the leading `sortedLen`
elements followed by the untouched rest. -/
theorem seq_sort_eq (S : List Int) :
    SequentialMergeSort.sort S
      = some (List.mergeSort (S.take (sortedLen S.length)) intLe
          ++ S.drop (sortedLen S.length)) :=
  sortWith_eq intLe 0 S

theorem par_sort_eq (sched : Int → Int → Bool) (S : List Int) :
    ParallelMergeSort.sort sched S
      = some (List.mergeSort (S.take (sortedLen S.length)) intLe
          ++ S.drop (sortedLen S.length)) :=
  parallelSortWith_eq intLe 0 sched S

theorem seq_sort_small (S : List Int) (h : S.length ≤ 2147483648) :
    SequentialMergeSort.sort S = some (List.mergeSort S intLe) := by
  rw [seq_sort_eq, sortedLen_small _ h, List.take_length, List.drop_length, List.append_nil]

theorem par_sort_small (sched : Int → Int → Bool) (S : List Int) (h : S.length ≤ 2147483648) :
    ParallelMergeSort.sort sched S = some (List.mergeSort S intLe) := by
  rw [par_sort_eq, sortedLen_small _ h, List.take_length, List.drop_length, List.append_nil]

theorem lead_sorted_perm (S : List Int) (p : Nat) :
    (List.mergeSort (S.take p) intLe ++ S.drop p).Perm S := by
  have h1 : (List.mergeSort (S.take p) intLe).Perm (S.take p) := List.mergeSort_perm _ _
  have h2 := h1.append_right (S.drop p)
  rw [List.take_append_drop] at h2
  exact h2

theorem lead_sorted_of_sorted (S : List Int) (p : Nat)
    (h : S.Pairwise (fun a b => a ≤ b)) :
    List.mergeSort (S.take p) intLe ++ S.drop p = S := by
  rw [mergeSort_int_of_sorted _ (h.sublist (List.take_sublist _ _)), List.take_append_drop]

theorem lead_sorted_idem (S : List Int) (p : Nat) (hp : p ≤ S.length) :
    List.mergeSort ((List.mergeSort (S.take p) intLe ++ S.drop p).take p) intLe
        ++ (List.mergeSort (S.take p) intLe ++ S.drop p).drop p
      = List.mergeSort (S.take p) intLe ++ S.drop p := by
  have hl : (List.mergeSort (S.take p) intLe).length = p := by
    rw [List.length_mergeSort, List.length_take]; omega
  have h1 : (List.mergeSort (S.take p) intLe ++ S.drop p).take p
      = List.mergeSort (S.take p) intLe := by
    conv => lhs; arg 1; rw [← hl]
    rw [List.take_left]
  have h2 : (List.mergeSort (S.take p) intLe ++ S.drop p).drop p = S.drop p := by
    conv => lhs; arg 1; rw [← hl]
    rw [List.drop_left]
  rw [h1, h2, mergeSort_int_of_sorted _ (sorted_mergeSort_int _)]

theorem huge_length (a b : Int) : (List.replicate 2147483648 a ++ [b]).length = 2147483649 := by
  rw [List.length_append, List.length_replicate, List.length_singleton]

theorem sortedLen_huge : sortedLen 2147483649 = 0 := by decide

theorem seq_sort_huge (a b : Int) :
    SequentialMergeSort.sort (List.replicate 2147483648 a ++ [b])
      = some (List.replicate 2147483648 a ++ [b]) := by
  rw [seq_sort_eq, huge_length, sortedLen_huge, List.take_zero, List.mergeSort_nil,
    List.drop_zero, List.nil_append]

/-- A list that starts with `a` and ends with `b ≠ a` is not its own reverse. -/
theorem concat_ne_reverse (R : List Int) (a b : Int) (hR : R.head? = some a) (hab : a ≠ b) :
    R ++ [b] ≠ (R ++ [b]).reverse := by
  rw [List.reverse_concat]
  cases R with
  | nil => simp at hR
  | cons x R1 =>
    simp only [List.head?_cons, Option.some.injEq] at hR
    subst hR
    intro h
    rw [List.cons_append] at h
    exact hab (List.cons.inj h).1

end MergeSortModel

/-! ## The claims -/

open MergeSortModel

/-- C1 (defect of the code): on the vector that holds `2^31` ones followed by a
zero, `data.size() - 1` narrows to the negative `int` `-2^31`, so `sort` returns the
vector unchanged, and that vector is not ascending. -/
theorem sort_not_ascending_beyond_int_range :
    SequentialMergeSort.sort (List.replicate 2147483648 1 ++ [0])
        = some (List.replicate 2147483648 1 ++ [0]) ∧
      ¬ Ascending (List.replicate 2147483648 1 ++ [0]) := by
  refine ⟨seq_sort_huge 1 0, ?_⟩
  rw [ascending_iff_pairwise, List.pairwise_append]
  rintro ⟨_, _, h⟩
  have := h 1 (List.mem_replicate.mpr ⟨by decide, rfl⟩) 0 (List.mem_singleton.mpr rfl)
  omega

/-- Where the size fits the `int` index: for every sequence `S` of at most `2^31`
integers, each of `SequentialMergeSort::sort` and `ParallelMergeSort::sort` returns,
and the sequence it leaves is ascending: `out[i] <= out[j]` for all indices
`i < j`. -/
theorem sort_ascending (sched : Int → Int → Bool) (S : List Int)
    (h : S.length ≤ 2147483648) :
    (∃ out, SequentialMergeSort.sort S = some out ∧ Ascending out) ∧
    (∃ out, ParallelMergeSort.sort sched S = some out ∧ Ascending out) :=
  ⟨⟨_, seq_sort_small S h, (ascending_iff_pairwise _).mpr (sorted_mergeSort_int S)⟩,
   ⟨_, par_sort_small sched S h, (ascending_iff_pairwise _).mpr (sorted_mergeSort_int S)⟩⟩

/-- An instance of `sort_ascending`, at the input `5 2 9 1 5 6`. -/
theorem sort_ascending_witness :
    ([5, 2, 9, 1, 5, 6] : List Int).length ≤ 2147483648 ∧
    ((∃ out, SequentialMergeSort.sort [5, 2, 9, 1, 5, 6] = some out ∧ Ascending out) ∧
     (∃ out, ParallelMergeSort.sort (fun _ _ => false) [5, 2, 9, 1, 5, 6] = some out
        ∧ Ascending out)) :=
  ⟨by decide, sort_ascending (fun _ _ => false) [5, 2, 9, 1, 5, 6] (by decide)⟩

/-- C2: for every sequence `S` of integers, each sorter returns a sequence of the
same length as `S` that is a permutation of `S`: every value occurs in it as many
times as in `S`. -/
theorem sort_perm (sched : Int → Int → Bool) (S : List Int) :
    (∃ out, SequentialMergeSort.sort S = some out ∧ out.length = S.length ∧ out.Perm S ∧
        ∀ v, out.count v = S.count v) ∧
    (∃ out, ParallelMergeSort.sort sched S = some out ∧ out.length = S.length ∧ out.Perm S ∧
        ∀ v, out.count v = S.count v) := by
  have hp := lead_sorted_perm S (sortedLen S.length)
  exact ⟨⟨_, seq_sort_eq S, hp.length_eq, hp, fun v => hp.count_eq v⟩,
    ⟨_, par_sort_eq sched S, hp.length_eq, hp, fun v => hp.count_eq v⟩⟩

/-- C3: for every sequence `S` of integers and every order in which the two halves
of each fork complete, `ParallelMergeSort::sort` and `SequentialMergeSort::sort`
return the same sequence; both return, and the two `merge` routines are the same
function. -/
theorem parallel_sort_eq_sequential_sort (sched : Int → Int → Bool) (S : List Int) :
    ParallelMergeSort.sort sched S = SequentialMergeSort.sort S ∧
    (∃ out, SequentialMergeSort.sort S = some out) ∧
    ParallelMergeSort.merge = SequentialMergeSort.merge := by
  refine ⟨?_, ⟨_, seq_sort_eq S⟩, rfl⟩
  rw [par_sort_eq, seq_sort_eq]

/-- C6: the sort is stable.  Run on elements that carry a key and a tag and are
compared by key only, each sorter returns a permutation of its input in which, for
every key `k`, the elements of key `k` appear in the same order as in the input; in
particular `(5,"a"),(5,"b")` keeps `a` before `b`. -/
theorem sort_stable {τ : Type} (tag0 : τ) (sched : Int → Int → Bool) (S : List (Int × τ)) :
    (∃ out, SequentialMergeSort.sortTagged tag0 S = some out ∧ out.Perm S ∧
      ∀ k : Int, out.filter (fun e => decide (e.1 = k)) = S.filter (fun e => decide (e.1 = k))) ∧
    (∃ out, ParallelMergeSort.sortTagged tag0 sched S = some out ∧ out.Perm S ∧
      ∀ k : Int, out.filter (fun e => decide (e.1 = k)) = S.filter (fun e => decide (e.1 = k))) ∧
    SequentialMergeSort.sortTagged "" [(5, "a"), (5, "b")] = some [(5, "a"), (5, "b")] ∧
    ParallelMergeSort.sortTagged "" sched [(5, "a"), (5, "b")] = some [(5, "a"), (5, "b")] := by
  have hperm : (List.mergeSort (S.take (sortedLen S.length)) keyLe
      ++ S.drop (sortedLen S.length)).Perm S := by
    have h2 := (List.mergeSort_perm (S.take (sortedLen S.length)) keyLe).append_right
      (S.drop (sortedLen S.length))
    rw [List.take_append_drop] at h2
    exact h2
  have hstable : ∀ k : Int,
      (List.mergeSort (S.take (sortedLen S.length)) keyLe
        ++ S.drop (sortedLen S.length)).filter (fun e => decide (e.1 = k))
      = S.filter (fun e => decide (e.1 = k)) := by
    intro k
    rw [List.filter_append, mergeSort_filter_key k _ _ (Nat.le_refl _), ← List.filter_append,
      List.take_append_drop]
  have hpair : ∀ T : List (Int × String), T = [(5, "a"), (5, "b")] →
      List.mergeSort (T.take (sortedLen T.length)) keyLe ++ T.drop (sortedLen T.length)
        = T := by
    intro T hT
    subst hT
    have hp : sortedLen ([((5 : Int), "a"), (5, "b")] : List (Int × String)).length = 2 := by
      decide
    rw [hp]
    have hle : keyLe ((5 : Int), "a") ((5 : Int), "b") = true := by
      simp [keyLe]
    simp [List.mergeSort_of_sorted, hle]
  refine ⟨⟨_, sortWith_eq keyLe (0, tag0) S, hperm, hstable⟩,
    ⟨_, parallelSortWith_eq keyLe (0, tag0) sched S, hperm, hstable⟩, ?_, ?_⟩
  · unfold SequentialMergeSort.sortTagged
    rw [sortWith_eq, hpair _ rfl]
  · unfold ParallelMergeSort.sortTagged
    rw [parallelSortWith_eq, hpair _ rfl]

/-- C7: sorting is idempotent.  For every sequence `S` of integers each sorter
returns some `out`, and run again on `out` it returns `out`. -/
theorem sort_idempotent (sched : Int → Int → Bool) (S : List Int) :
    (∃ out, SequentialMergeSort.sort S = some out ∧ SequentialMergeSort.sort out = some out) ∧
    (∃ out, ParallelMergeSort.sort sched S = some out ∧
      ParallelMergeSort.sort sched out = some out) := by
  have hp := lead_sorted_perm S (sortedLen S.length)
  have hidem := lead_sorted_idem S (sortedLen S.length) (sortedLen_le _)
  refine ⟨⟨_, seq_sort_eq S, ?_⟩, ⟨_, par_sort_eq sched S, ?_⟩⟩
  · rw [seq_sort_eq, hp.length_eq, hidem]
  · rw [par_sort_eq, hp.length_eq, hidem]

/-- C8: on the empty vector the right bound `size() - 1` narrows to `-1`, the range
`[0, -1]` is empty and both sorters return the empty vector without a failure (the
recursion returns at once, whatever its fuel); on a one-element vector both sorters
return it unchanged. -/
theorem sort_empty_and_singleton (sched : Int → Int → Bool) :
    sizeMinusOne 0 = -1 ∧ ¬ ((0 : Int) < sizeMinusOne 0) ∧
    (∀ fuel : Nat, SequentialMergeSort.mergeSort (fuel + 1) [] 0 (sizeMinusOne 0) = some []) ∧
    (∀ fuel : Nat,
      ParallelMergeSort.parallelMergeSort sched (fuel + 1) [] 0 (sizeMinusOne 0) = some []) ∧
    SequentialMergeSort.sort [] = some [] ∧
    ParallelMergeSort.sort sched [] = some [] ∧
    (∀ x : Int, SequentialMergeSort.sort [x] = some [x]) ∧
    (∀ x : Int, ParallelMergeSort.sort sched [x] = some [x]) := by
  have h0 : ¬ ((0 : Int) < sizeMinusOne 0) := by decide
  have h1 : ¬ ((0 : Int) < sizeMinusOne 1) := by decide
  refine ⟨by decide, h0, fun fuel => mergeSortWith_base intLe 0 fuel [] 0 _ h0,
    fun fuel => parallelMergeSortWith_base intLe 0 sched fuel [] 0 _ h0,
    mergeSortWith_base intLe 0 0 [] 0 _ h0,
    parallelMergeSortWith_base intLe 0 sched 0 [] 0 _ h0, ?_, ?_⟩
  · intro x
    have hl : ([x] : List Int).length = 1 := rfl
    unfold SequentialMergeSort.sort sortWith
    rw [hl]
    exact mergeSortWith_base intLe 0 1 [x] 0 _ h1
  · intro x
    have hl : ([x] : List Int).length = 1 := rfl
    unfold ParallelMergeSort.sort parallelSortWith
    rw [hl]
    exact parallelMergeSortWith_base intLe 0 sched 1 [x] 0 _ h1

/-- C9: for every sequence `S` of integers that is already ascending (in particular
when all its elements are equal), each sorter returns `S` unchanged. -/
theorem sort_of_ascending (sched : Int → Int → Bool) (S : List Int) (h : Ascending S) :
    SequentialMergeSort.sort S = some S ∧ ParallelMergeSort.sort sched S = some S := by
  have hs := lead_sorted_of_sorted S (sortedLen S.length) ((ascending_iff_pairwise S).mp h)
  constructor
  · rw [seq_sort_eq, hs]
  · rw [par_sort_eq, hs]

/-- C9 (witness): the statement at the all-equal input `7 7 7 7`. -/
theorem sort_of_ascending_witness :
    Ascending [7, 7, 7, 7] ∧
    (SequentialMergeSort.sort [7, 7, 7, 7] = some [7, 7, 7, 7] ∧
      ParallelMergeSort.sort (fun _ _ => true) [7, 7, 7, 7] = some [7, 7, 7, 7]) :=
  ⟨(ascending_iff_pairwise _).mpr (by decide),
    sort_of_ascending (fun _ _ => true) [7, 7, 7, 7] ((ascending_iff_pairwise _).mpr (by decide))⟩

/-- C10 (defect of the code): the vector that holds `2^31` twos followed by a one
is descending, but `data.size() - 1` narrows to a negative `int` and `sort` returns
the vector unchanged, which is not its reverse. -/
theorem sort_reverse_fails_beyond_int_range :
    Descending (List.replicate 2147483648 2 ++ [1]) ∧
    SequentialMergeSort.sort (List.replicate 2147483648 2 ++ [1])
      = some (List.replicate 2147483648 2 ++ [1]) ∧
    SequentialMergeSort.sort (List.replicate 2147483648 2 ++ [1])
      ≠ some (List.reverse (List.replicate 2147483648 2 ++ [1])) := by
  refine ⟨?_, seq_sort_huge 2 1, ?_⟩
  · rw [descending_iff_pairwise, List.pairwise_append]
    refine ⟨List.pairwise_replicate.mpr (Or.inr (le_refl _)), List.pairwise_singleton _ _, ?_⟩
    intro a ha b hb
    rw [(List.mem_replicate.mp ha).2, List.mem_singleton.mp hb]
    decide
  · rw [seq_sort_huge 2 1]
    intro heq
    have hhead : (List.replicate 2147483648 (2 : Int)).head? = some 2 := by
      rw [List.head?_replicate, if_neg (by decide)]
    exact concat_ne_reverse _ 2 1 hhead (by decide) (Option.some.inj heq)

/-- Where the size fits the `int` index: for every descending sequence `S` of at
most `2^31` integers, each sorter returns the reverse of `S`. -/
theorem sort_of_descending (sched : Int → Int → Bool) (S : List Int)
    (hlen : S.length ≤ 2147483648) (h : Descending S) :
    SequentialMergeSort.sort S = some S.reverse ∧
    ParallelMergeSort.sort sched S = some S.reverse := by
  have hrev : S.reverse.Pairwise (fun a b => a ≤ b) :=
    List.pairwise_reverse.mpr ((descending_iff_pairwise S).mp h)
  have heq : List.mergeSort S intLe = S.reverse :=
    sorted_perm_unique _ _ ((List.mergeSort_perm S intLe).trans (List.reverse_perm S).symm)
      (sorted_mergeSort_int S) hrev
  constructor
  · rw [seq_sort_small S hlen, heq]
  · rw [par_sort_small sched S hlen, heq]

/-- An instance of `sort_of_descending`, at the input `9 6 6 2 1`. -/
theorem sort_of_descending_witness :
    (([9, 6, 6, 2, 1] : List Int).length ≤ 2147483648 ∧ Descending [9, 6, 6, 2, 1]) ∧
    (SequentialMergeSort.sort [9, 6, 6, 2, 1] = some ([9, 6, 6, 2, 1] : List Int).reverse ∧
      ParallelMergeSort.sort (fun _ _ => false) [9, 6, 6, 2, 1]
        = some ([9, 6, 6, 2, 1] : List Int).reverse) :=
  ⟨⟨by decide, (descending_iff_pairwise _).mpr (by decide)⟩,
    sort_of_descending (fun _ _ => false) [9, 6, 6, 2, 1] (by decide)
      ((descending_iff_pairwise _).mpr (by decide))⟩

namespace MergeSortModel

/-! ## The final loop counters of `merge` -/

theorem wrap32_idem (x : Int) : wrap32 (wrap32 x) = wrap32 x := by
  unfold wrap32; omega

theorem wrap32_add_left (a b : Int) : wrap32 (wrap32 a + b) = wrap32 (a + b) := by
  unfold wrap32; omega

/-- The routine that also reports the loop counters returns the same vector as
`merge`. -/
theorem mergeWith_eq_state {α : Type} (le : α → α → Bool) (dflt : α) (data : List α)
    (left middle right : Int) :
    mergeWith le dflt data left middle right
      = (mergeStateWith le dflt data left middle right).map (fun s => s.2.2.2) := by
  unfold mergeWith mergeStateWith leftLen rightLen
  simp only []
  cases allocVec dflt (wrap32 (wrap32 (middle - left) + 1)) with
  | none => rfl
  | some la0 =>
    cases allocVec dflt (wrap32 (right - middle)) with
    | none => rfl
    | some ra0 =>
      simp only []
      cases copyLoop data left (wrap32 (wrap32 (middle - left) + 1)) (data.length + 1) 0 la0 with
      | none => rfl
      | some la =>
        simp only []
        cases copyLoop data (wrap32 (middle + 1)) (wrap32 (right - middle)) (data.length + 1) 0
          ra0 with
        | none => rfl
        | some ra =>
          simp only []
          cases mergeLoop le la ra (wrap32 (wrap32 (middle - left) + 1)) (wrap32 (right - middle))
            (data.length + 1) 0 0 left data with
          | none => rfl
          | some s =>
            obtain ⟨i, j, k, d1⟩ := s
            simp only []
            cases drainLoop la (wrap32 (wrap32 (middle - left) + 1)) (data.length + 1) i k d1 with
            | none => rfl
            | some t =>
              obtain ⟨i2, k2, d2⟩ := t
              simp only []
              cases drainLoop ra (wrap32 (right - middle)) (data.length + 1) j k2 d2 with
              | none => rfl
              | some u =>
                obtain ⟨j3, k3, d3⟩ := u
                rfl

theorem drainLoop_counters {α : Type} (arr : List α) (n : Int) (hn : n < 2147483648) :
    ∀ (fuel : Nat) (i k : Int) (data : List α) (i1 k1 : Int) (d1 : List α),
      0 ≤ i → i ≤ n → wrap32 k = k →
      drainLoop arr n fuel i k data = some (i1, k1, d1) →
      i1 = n ∧ k1 = wrap32 (k + (n - i)) := by
  intro fuel
  induction fuel with
  | zero =>
    intro i k data i1 k1 d1 _ _ _ h
    rw [drainLoop] at h
    exact absurd h (by simp)
  | succ f ih =>
    intro i k data i1 k1 d1 h0 hin hk h
    by_cases hlt : i < n
    · rw [drainLoop, if_pos hlt] at h
      cases hr : readAt arr i with
      | none => rw [hr] at h; exact absurd h (by simp)
      | some a =>
        rw [hr] at h
        simp only [] at h
        cases hw : writeAt data k a with
        | none => rw [hw] at h; exact absurd h (by simp)
        | some data1 =>
          rw [hw] at h
          simp only [] at h
          have hi : wrap32 (i + 1) = i + 1 := wrap32_of_range _ (by omega) (by omega)
          rw [hi] at h
          obtain ⟨e1, e2⟩ := ih (i + 1) (wrap32 (k + 1)) data1 i1 k1 d1 (by omega) (by omega)
            (wrap32_idem _) h
          refine ⟨e1, ?_⟩
          rw [e2, wrap32_add_left]
          congr 1; omega
    · rw [drainLoop, if_neg hlt] at h
      simp only [Option.some.injEq, Prod.mk.injEq] at h
      obtain ⟨e1, e2, _⟩ := h
      refine ⟨by omega, ?_⟩
      have : k + (n - i) = k := by omega
      rw [this, hk, e2]

theorem mergeLoop_counters {α : Type} (le : α → α → Bool) (la ra : List α) (n1 n2 : Int)
    (hn1 : n1 < 2147483648) (hn2 : n2 < 2147483648) :
    ∀ (fuel : Nat) (i j k : Int) (data : List α) (i1 j1 k1 : Int) (d1 : List α),
      0 ≤ i → i ≤ n1 → 0 ≤ j → j ≤ n2 → wrap32 k = k →
      mergeLoop le la ra n1 n2 fuel i j k data = some (i1, j1, k1, d1) →
      0 ≤ i1 ∧ i1 ≤ n1 ∧ 0 ≤ j1 ∧ j1 ≤ n2 ∧ wrap32 k1 = k1 ∧
        k1 = wrap32 (k + (i1 - i) + (j1 - j)) := by
  intro fuel
  induction fuel with
  | zero =>
    intro i j k data i1 j1 k1 d1 _ _ _ _ _ h
    rw [mergeLoop] at h
    exact absurd h (by simp)
  | succ f ih =>
    intro i j k data i1 j1 k1 d1 hi0 hin hj0 hjn hk h
    by_cases hc : i < n1 ∧ j < n2
    · rw [mergeLoop, if_pos hc] at h
      cases hra : readAt la i with
      | none => rw [hra] at h; exact absurd h (by simp)
      | some a =>
        cases hrb : readAt ra j with
        | none => rw [hra, hrb] at h; exact absurd h (by simp)
        | some b =>
          rw [hra, hrb] at h
          simp only [] at h
          by_cases hle : le a b = true
          · rw [if_pos hle] at h
            cases hw : writeAt data k a with
            | none => rw [hw] at h; exact absurd h (by simp)
            | some data1 =>
              rw [hw] at h
              simp only [] at h
              have hi : wrap32 (i + 1) = i + 1 := wrap32_of_range _ (by omega) (by omega)
              rw [hi] at h
              obtain ⟨a1, a2, a3, a4, a5, a6⟩ := ih (i + 1) j (wrap32 (k + 1)) data1 i1 j1 k1 d1
                (by omega) (by omega) hj0 hjn (wrap32_idem _) h
              refine ⟨a1, a2, a3, a4, a5, ?_⟩
              rw [a6, Int.add_assoc (wrap32 (k + 1)), wrap32_add_left]
              congr 1; omega
          · rw [if_neg hle] at h
            cases hw : writeAt data k b with
            | none => rw [hw] at h; exact absurd h (by simp)
            | some data1 =>
              rw [hw] at h
              simp only [] at h
              have hj : wrap32 (j + 1) = j + 1 := wrap32_of_range _ (by omega) (by omega)
              rw [hj] at h
              obtain ⟨a1, a2, a3, a4, a5, a6⟩ := ih i (j + 1) (wrap32 (k + 1)) data1 i1 j1 k1 d1
                hi0 hin (by omega) (by omega) (wrap32_idem _) h
              refine ⟨a1, a2, a3, a4, a5, ?_⟩
              rw [a6, Int.add_assoc (wrap32 (k + 1)), wrap32_add_left]
              congr 1; omega
    · rw [mergeLoop, if_neg hc] at h
      simp only [Option.some.injEq, Prod.mk.injEq] at h
      obtain ⟨e1, e2, e3, _⟩ := h
      subst e1 e2 e3
      refine ⟨hi0, hin, hj0, hjn, hk, ?_⟩
      have : k + (i - i) + (j - j) = k := by omega
      rw [this, hk]

theorem mergeStateWith_append {α : Type} (le : α → α → Bool) (dflt : α) (a l r b : List α)
    (left middle right : Int)
    (hleft : left = (a.length : Int))
    (hmid : middle = (a.length : Int) + (l.length : Int) - 1)
    (hright : right = (a.length : Int) + (l.length : Int) + (r.length : Int) - 1)
    (hl1 : 1 ≤ l.length) (hl2 : l.length ≤ 2147483647)
    (htot : a.length + l.length + r.length ≤ 2147483648) :
    mergeStateWith le dflt (a ++ l ++ r ++ b) left middle right
      = some ((l.length : Int), (r.length : Int), wrap32 (right + 1),
          a ++ List.merge l r le ++ b) := by
  have hn1 : leftLen left middle = ((l.length : Nat) : Int) := by
    rw [hmid, hleft]; unfold leftLen wrap32; omega
  have hn2 : rightLen middle right = ((r.length : Nat) : Int) := by
    rw [hmid, hright]; unfold rightLen wrap32; omega
  have hlen : (a ++ l ++ r ++ b).length = a.length + l.length + r.length + b.length := by
    simp only [List.length_append]
  generalize hF : (a ++ l ++ r ++ b).length + 1 = F
  have hF1 : l.length + r.length < F := by omega
  have hcopy1 : copyLoop (a ++ l ++ r ++ b) left (l.length : Int) F
      0 (List.replicate l.length dflt) = some l := by
    have h := copyLoop_spec left (l.length : Int) l F a (r ++ b) []
      (List.replicate l.length dflt) (by simp) (by simp) (by intro _; rw [hleft]; simp)
      (by omega) (by simp; omega) (by omega)
    simpa using h
  have hcopy2 : copyLoop (a ++ l ++ r ++ b) (wrap32 (middle + 1)) (r.length : Int)
      F 0 (List.replicate r.length dflt) = some r := by
    have h := copyLoop_spec (wrap32 (middle + 1)) (r.length : Int) r F (a ++ l) b []
      (List.replicate r.length dflt) (by simp) (by simp)
      (by
        intro hr
        have : 1 ≤ r.length := List.length_pos.mpr hr
        rw [hmid]; simp only [List.length_nil, List.length_append]
        unfold wrap32; omega)
      (by simp only [List.length_append]; omega) (by simp; omega) (by omega)
    simpa using h
  have hk0 : left = wrap32 (a.length : Int) := by
    rw [hleft, wrap32_natCast _ (by omega)]
  obtain ⟨i, j, k, d1, i2, k2, d2, j3, k3, e1, e2, e3⟩ :=
    mergeLoops_spec le (l.length : Int) (r.length : Int) F F [] l [] r a (l ++ r) b
      (by simp) (by simp) (by simp) (by omega) (by simp; omega) (by simp; omega)
      (by omega) (by omega) (by omega)
  have e1x : mergeLoop le l r (l.length : Int) (r.length : Int) F
      0 0 left (a ++ l ++ r ++ b) = some (i, j, k, d1) := by
    rw [hk0]; simpa using e1
  have e2x : drainLoop l (l.length : Int) F i k d1 = some (i2, k2, d2) := by simpa using e2
  have e3x : drainLoop r (r.length : Int) F j k2 d2
      = some (j3, k3, a ++ List.merge l r le ++ b) := by simpa using e3
  obtain ⟨c1, c2, c3, c4, c5, c6⟩ := mergeLoop_counters le l r (l.length : Int) (r.length : Int)
    (by omega) (by omega) F 0 0 left (a ++ l ++ r ++ b) i j k d1 (by omega) (by omega)
    (by omega) (by omega) (by rw [hk0]; exact wrap32_idem _) e1x
  obtain ⟨c7, c8⟩ := drainLoop_counters l (l.length : Int) (by omega) F i k d1 i2 k2 d2
    c1 c2 c5 e2x
  obtain ⟨c9, c10⟩ := drainLoop_counters r (r.length : Int) (by omega) F j k2 d2 j3 k3 _
    c3 c4 (by rw [c8]; exact wrap32_idem _) e3x
  have hk3 : k3 = wrap32 (right + 1) := by
    rw [c10, c8, c6, wrap32_add_left, Int.add_assoc (wrap32 _), wrap32_add_left]
    congr 1; omega
  unfold mergeStateWith
  simp only [hn1, hn2, allocVec_natCast, hF, hcopy1, hcopy2, e1x, e2x, e3x, c7, c9, hk3]

theorem mergeStateWith_range {α : Type} (le : α → α → Bool) (dflt : α) (data : List α)
    (left middle right : Int) (h0 : 0 ≤ left) (h1 : left ≤ middle) (h2 : middle ≤ right)
    (h3 : right < (data.length : Int)) (h4 : right ≤ INT_MAX) (h5 : middle - left < INT_MAX) :
    mergeStateWith le dflt data left middle right
      = some (middle - left + 1, right - middle, wrap32 (right + 1),
          data.take left.toNat
            ++ List.merge (slice data left middle) (slice data (middle + 1) right) le
            ++ data.drop (right.toNat + 1)) := by
  unfold INT_MAX at h4 h5
  obtain ⟨l, rfl⟩ := Int.eq_ofNat_of_zero_le h0
  obtain ⟨m, rfl⟩ := Int.eq_ofNat_of_zero_le (by omega : 0 ≤ middle)
  obtain ⟨r, rfl⟩ := Int.eq_ofNat_of_zero_le (by omega : 0 ≤ right)
  have e1 : slice data ((m : Int) + 1) (r : Int) = (data.drop (m + 1)).take (r - m) := by
    have := slice_natCast data (m + 1) r
    have hsub : r + 1 - (m + 1) = r - m := by omega
    rw [hsub] at this
    rw [← this]; simp
  rw [slice_natCast data l m, e1, Int.toNat_ofNat, Int.toNat_ofNat]
  have hsplit := range_split data l m r (by omega) (by omega)
  have ha : (data.take l).length = l := by rw [List.length_take]; omega
  have hl : ((data.drop l).take (m + 1 - l)).length = m + 1 - l := by
    rw [List.length_take, List.length_drop]; omega
  have hr : ((data.drop (m + 1)).take (r - m)).length = r - m := by
    rw [List.length_take, List.length_drop]; omega
  have key := mergeStateWith_append le dflt (data.take l) ((data.drop l).take (m + 1 - l))
    ((data.drop (m + 1)).take (r - m)) (data.drop (r + 1)) (l : Int) (m : Int) (r : Int)
    (by rw [ha]) (by rw [ha, hl]; omega) (by rw [ha, hl, hr]; omega)
    (by rw [hl]; omega) (by rw [hl]; omega) (by rw [ha, hl, hr]; omega)
  rw [← hsplit, hl, hr] at key
  rw [key]
  congr 2
  · omega
  · congr 1; omega

/-! ## The recursion on an index range, and what it leaves untouched -/

theorem slice_split {α : Type} (data : List α) (l r : Nat) :
    data = data.take l ++ (data.drop l).take (r + 1 - l) ++ data.drop (r + 1 - l + l) := by
  have e := drop_split data l (r + 1 - l)
  rw [Nat.add_comm l] at e
  calc data = data.take l ++ data.drop l := (List.take_append_drop l data).symm
    _ = data.take l ++ ((data.drop l).take (r + 1 - l) ++ data.drop (r + 1 - l + l)) := by
        rw [← e]
    _ = _ := by simp only [List.append_assoc]

theorem mergeSortWith_range {α : Type} (le : α → α → Bool) (dflt : α) (fuel : Nat)
    (data : List α) (left right : Int) (h0 : 0 ≤ left) (h1 : left ≤ right)
    (h3 : right < (data.length : Int)) (h4 : right ≤ INT_MAX)
    (hf : right - left + 1 < (fuel : Int)) :
    mergeSortWith le dflt fuel data left right
      = some (data.take left.toNat ++ List.mergeSort (slice data left right) le
          ++ data.drop (right.toNat + 1)) := by
  unfold INT_MAX at h4
  obtain ⟨l, rfl⟩ := Int.eq_ofNat_of_zero_le h0
  obtain ⟨r, rfl⟩ := Int.eq_ofNat_of_zero_le (by omega : 0 ≤ right)
  rw [slice_natCast data l r, Int.toNat_ofNat, Int.toNat_ofNat]
  have hsplit := slice_split data l r
  have hadd : r + 1 - l + l = r + 1 := by omega
  rw [hadd] at hsplit
  have ha : (data.take l).length = l := by rw [List.length_take]; omega
  have hx : ((data.drop l).take (r + 1 - l)).length = r + 1 - l := by
    rw [List.length_take, List.length_drop]; omega
  have key := mergeSortWith_append le dflt fuel (data.take l) ((data.drop l).take (r + 1 - l))
    (data.drop (r + 1)) (l : Int) (r : Int) (by rw [ha]) (by rw [ha, hx]; omega)
    (by rw [ha, hx]; omega) (by rw [hx]; omega)
  rw [← hsplit] at key
  exact key

theorem parallelMergeSortWith_range {α : Type} (le : α → α → Bool) (dflt : α)
    (sched : Int → Int → Bool) (fuel : Nat)
    (data : List α) (left right : Int) (h0 : 0 ≤ left) (h1 : left ≤ right)
    (h3 : right < (data.length : Int)) (h4 : right ≤ INT_MAX)
    (hf : right - left + 1 < (fuel : Int)) :
    parallelMergeSortWith le dflt sched fuel data left right
      = some (data.take left.toNat ++ List.mergeSort (slice data left right) le
          ++ data.drop (right.toNat + 1)) := by
  unfold INT_MAX at h4
  obtain ⟨l, rfl⟩ := Int.eq_ofNat_of_zero_le h0
  obtain ⟨r, rfl⟩ := Int.eq_ofNat_of_zero_le (by omega : 0 ≤ right)
  rw [slice_natCast data l r, Int.toNat_ofNat, Int.toNat_ofNat]
  have hsplit := slice_split data l r
  have hadd : r + 1 - l + l = r + 1 := by omega
  rw [hadd] at hsplit
  have ha : (data.take l).length = l := by rw [List.length_take]; omega
  have hx : ((data.drop l).take (r + 1 - l)).length = r + 1 - l := by
    rw [List.length_take, List.length_drop]; omega
  have key := parallelMergeSortWith_append le dflt sched fuel (data.take l)
    ((data.drop l).take (r + 1 - l))
    (data.drop (r + 1)) (l : Int) (r : Int) (by rw [ha]) (by rw [ha, hx]; omega)
    (by rw [ha, hx]; omega) (by rw [hx]; omega)
  rw [← hsplit] at key
  exact key

/-- A vector whose range `[left, right]` has been replaced by as many elements keeps
its length and every element outside the range. -/
theorem splice_frame {α : Type} (data mid : List α) (left right : Int)
    (h0 : 0 ≤ left) (h1 : left ≤ right) (h3 : right < (data.length : Int))
    (hm : (mid.length : Int) = right - left + 1) :
    (data.take left.toNat ++ mid ++ data.drop (right.toNat + 1)).length = data.length ∧
    ∀ i : Nat, ((i : Int) < left ∨ right < (i : Int)) →
      (data.take left.toNat ++ mid ++ data.drop (right.toNat + 1))[i]? = data[i]? := by
  obtain ⟨l, rfl⟩ := Int.eq_ofNat_of_zero_le h0
  obtain ⟨r, rfl⟩ := Int.eq_ofNat_of_zero_le (by omega : 0 ≤ right)
  rw [Int.toNat_ofNat, Int.toNat_ofNat]
  have ha : (data.take l).length = l := by rw [List.length_take]; omega
  have hpre : (data.take l ++ mid).length = r + 1 := by
    rw [List.length_append, ha]; omega
  constructor
  · rw [List.length_append, hpre, List.length_drop]; omega
  · intro i hi
    rcases hi with hi | hi
    · have hil : i < l := by omega
      rw [List.append_assoc, List.getElem?_append_left (by rw [ha]; exact hil),
        List.getElem?_take_of_lt hil]
    · have hir : r + 1 ≤ i := by omega
      rw [List.getElem?_append_right (by rw [hpre]; exact hir), hpre, List.getElem?_drop]
      congr 1; omega

/-! ## The shape of the recursion -/

theorem middleOf_facts (left right : Int) (hl : -2147483648 ≤ left) (hlt : left < right)
    (hr : right ≤ INT_MAX) (hd : right - left ≤ INT_MAX) :
    wrap32 (right - left) = right - left ∧
    middleOf left right = left + (right - left) / 2 ∧
    left ≤ middleOf left right ∧ middleOf left right < right ∧
    wrap32 (middleOf left right + 1) = middleOf left right + 1 := by
  unfold INT_MAX at hr hd
  have h1 : wrap32 (right - left) = right - left := wrap32_of_range _ (by omega) (by omega)
  have h2 : middleOf left right = left + (right - left) / 2 := by
    unfold middleOf
    rw [h1, Int.tdiv_eq_ediv (by omega) (by omega)]
    exact wrap32_of_range _ (by omega) (by omega)
  refine ⟨h1, h2, by omega, by omega, ?_⟩
  exact wrap32_of_range _ (by omega) (by omega)

/-- One step of the recursion of `mergeSort` on a range with `left < right`: the
call on `[left, middle]`, then the call on `[middle+1, right]`, then `merge`, with
`middle` the value of `left + (right - left) / 2`. -/
theorem mergeSortWith_step {α : Type} (le : α → α → Bool) (dflt : α) (fuel : Nat)
    (data : List α) (left right : Int) (h : left < right) :
    mergeSortWith le dflt (fuel + 1) data left right
      = (mergeSortWith le dflt fuel data left (middleOf left right)).bind (fun d1 =>
          (mergeSortWith le dflt fuel d1 (wrap32 (middleOf left right + 1)) right).bind
            (fun d2 => mergeWith le dflt d2 left (middleOf left right) right)) := by
  rw [mergeSortWith, if_pos h]
  unfold middleOf
  simp only []
  cases mergeSortWith le dflt fuel data left
    (wrap32 (left + (wrap32 (right - left)).tdiv 2)) with
  | none => rfl
  | some d1 =>
    simp only [Option.bind]
    cases mergeSortWith le dflt fuel d1
      (wrap32 (wrap32 (left + (wrap32 (right - left)).tdiv 2) + 1)) right with
    | none => rfl
    | some d2 => rfl

/-- One step of the recursion of `parallelMergeSort` on a range with `left < right`:
the two halves in the order the schedule picks, then `merge`. -/
theorem parallelMergeSortWith_step {α : Type} (le : α → α → Bool) (dflt : α)
    (sched : Int → Int → Bool) (fuel : Nat) (data : List α) (left right : Int)
    (h : left < right) :
    parallelMergeSortWith le dflt sched (fuel + 1) data left right
      = if sched left right = true then
          (parallelMergeSortWith le dflt sched fuel data left (middleOf left right)).bind
            (fun d1 =>
              (parallelMergeSortWith le dflt sched fuel d1 (wrap32 (middleOf left right + 1))
                right).bind
                (fun d2 => mergeWith le dflt d2 left (middleOf left right) right))
        else
          (parallelMergeSortWith le dflt sched fuel data (wrap32 (middleOf left right + 1))
            right).bind
            (fun d1 =>
              (parallelMergeSortWith le dflt sched fuel d1 left (middleOf left right)).bind
                (fun d2 => mergeWith le dflt d2 left (middleOf left right) right)) := by
  rw [parallelMergeSortWith, if_pos h]
  unfold middleOf
  simp only []
  by_cases hs : sched left right = true
  · rw [if_pos hs, if_pos hs]
    cases parallelMergeSortWith le dflt sched fuel data left
      (wrap32 (left + (wrap32 (right - left)).tdiv 2)) with
    | none => rfl
    | some d1 =>
      simp only [Option.bind]
      cases parallelMergeSortWith le dflt sched fuel d1
        (wrap32 (wrap32 (left + (wrap32 (right - left)).tdiv 2) + 1)) right with
      | none => rfl
      | some d2 => rfl
  · rw [if_neg hs, if_neg hs]
    cases parallelMergeSortWith le dflt sched fuel data
      (wrap32 (wrap32 (left + (wrap32 (right - left)).tdiv 2) + 1)) right with
    | none => rfl
    | some d1 =>
      simp only [Option.bind]
      cases parallelMergeSortWith le dflt sched fuel d1 left
        (wrap32 (left + (wrap32 (right - left)).tdiv 2)) with
      | none => rfl
      | some d2 => rfl

theorem middleOf_wide : middleOf (-2147483647) 2147483647 = -2147483648 := by decide

theorem middleOf_wide_succ : wrap32 (middleOf (-2147483647) 2147483647 + 1) = -2147483647 := by
  decide

/-- The call of `mergeSort` on `[-2147483647, 2147483647]` calls itself: `right - left`
wraps to `-2`, `middle` is `-2147483648`, the call on `[left, middle]` returns at
once and `middle + 1` is `left` again; so it returns for no amount of fuel. -/
theorem mergeSortWith_wide_none {α : Type} (le : α → α → Bool) (dflt : α) :
    ∀ (fuel : Nat) (data : List α),
      mergeSortWith le dflt fuel data (-2147483647) 2147483647 = none := by
  intro fuel
  induction fuel with
  | zero => intro data; rfl
  | succ f ih =>
    intro data
    rw [mergeSortWith_step le dflt f data _ _ (by decide), middleOf_wide_succ, middleOf_wide]
    cases mergeSortWith le dflt f data (-2147483647) (-2147483648) with
    | none => rfl
    | some d1 =>
      simp only [Option.bind]
      rw [ih d1]

theorem parallelMergeSortWith_wide_none {α : Type} (le : α → α → Bool) (dflt : α)
    (sched : Int → Int → Bool) :
    ∀ (fuel : Nat) (data : List α),
      parallelMergeSortWith le dflt sched fuel data (-2147483647) 2147483647 = none := by
  intro fuel
  induction fuel with
  | zero => intro data; rfl
  | succ f ih =>
    intro data
    rw [parallelMergeSortWith_step le dflt sched f data _ _ (by decide), middleOf_wide_succ,
      middleOf_wide]
    by_cases hs : sched (-2147483647) 2147483647 = true
    · rw [if_pos hs]
      cases parallelMergeSortWith le dflt sched f data (-2147483647) (-2147483648) with
      | none => rfl
      | some d1 =>
        simp only [Option.bind]
        rw [ih d1]
    · rw [if_neg hs, ih data]
      rfl

/-! ## Further consequences for the two `int` sorters -/

theorem seq_sort_of_huge_length (S : List Int) (h : S.length = 2147483649) :
    SequentialMergeSort.sort S = some S := by
  rw [seq_sort_eq, h, sortedLen_huge, List.take_zero, List.mergeSort_nil,
    List.drop_zero, List.nil_append]

theorem replicate_corner_facts (v : Int) :
    INT_MAX < ((List.replicate 2147483648 v).length : Int) ∧
    (slice (List.replicate 2147483648 v) 0 INT_MAX).Pairwise (fun a b => a ≤ b) ∧
    (slice (List.replicate 2147483648 v) (INT_MAX + 1) INT_MAX).Pairwise (fun a b => a ≤ b) := by
  have hs : (List.replicate 2147483648 v).Pairwise (fun a b => a ≤ b) :=
    List.pairwise_replicate.mpr (Or.inr (le_refl _))
  refine ⟨?_, hs.sublist (slice_sublist _ _ _), hs.sublist (slice_sublist _ _ _)⟩
  rw [List.length_replicate]; decide

theorem merged_frame (data : List Int) (left middle right : Int)
    (h0 : 0 ≤ left) (h1 : left ≤ middle) (h2 : middle ≤ right)
    (h3 : right < (data.length : Int)) :
    FrameOutside data
      (data.take left.toNat
        ++ List.merge (slice data left middle) (slice data (middle + 1) right) intLe
        ++ data.drop (right.toNat + 1)) left right := by
  have e1 := length_slice data left middle h0 (by omega) (by omega)
  have e2 := length_slice data (middle + 1) right (by omega) (by omega) h3
  exact splice_frame data _ left right h0 (by omega) h3
    (by rw [List.length_merge]; push_cast; omega)

end MergeSortModel

/-- C11: on the literal input `5 2 9 1 5 6` each sorter leaves `1 2 5 5 6 9`, the
parallel one whatever the order in which the halves of its forks complete. -/
theorem sort_literal_scenario (sched : Int → Int → Bool) :
    SequentialMergeSort.sort [5, 2, 9, 1, 5, 6] = some [1, 2, 5, 5, 6, 9] ∧
    ParallelMergeSort.sort sched [5, 2, 9, 1, 5, 6] = some [1, 2, 5, 5, 6, 9] ∧
    ParallelMergeSort.sort (fun _ _ => true) [5, 2, 9, 1, 5, 6] = some [1, 2, 5, 5, 6, 9] ∧
    ParallelMergeSort.sort (fun _ _ => false) [5, 2, 9, 1, 5, 6] = some [1, 2, 5, 5, 6, 9] := by
  have h : SequentialMergeSort.sort [5, 2, 9, 1, 5, 6] = some [1, 2, 5, 5, 6, 9] := by decide
  refine ⟨h, ?_, by decide, by decide⟩
  rw [par_sort_eq, ← seq_sort_eq]
  exact h

/-- C16 (counterexample): on a vector of `2^31` zeros, (a) with `left = middle = 0`
and `right = INT_MAX` the indices are valid and `merge` returns, but the write index
`k` ends at `-2^31`, not at `right + 1`; (b) with `left = 0`,
`middle = right = INT_MAX` the scratch length `middle - left + 1` is negative and
`merge` does not complete. -/
theorem merge_final_index_wraps_at_int_max :
    ((0 : Int) ≤ 0 ∧ (0 : Int) ≤ INT_MAX ∧ INT_MAX ≤ INT_MAX ∧
      INT_MAX < ((List.replicate 2147483648 (0 : Int)).length : Int)) ∧
    (∃ i j out, SequentialMergeSort.mergeState (List.replicate 2147483648 0) 0 0 INT_MAX
        = some (i, j, -2147483648, out)) ∧
    (-2147483648 : Int) ≠ INT_MAX + 1 ∧
    leftLen 0 INT_MAX < 0 ∧
    SequentialMergeSort.mergeState (List.replicate 2147483648 0) 0 INT_MAX INT_MAX = none := by
  have hlen := (replicate_corner_facts 0).1
  refine ⟨⟨by decide, by decide, by decide, hlen⟩, ?_, by decide, by decide, ?_⟩
  · have h := mergeStateWith_range intLe 0 (List.replicate 2147483648 (0 : Int)) 0 0 INT_MAX
      (by decide) (by decide) (by decide) hlen (by decide) (by decide)
    have hk : wrap32 (INT_MAX + 1) = -2147483648 := by decide
    rw [hk] at h
    exact ⟨_, _, _, h⟩
  · have hn1 : leftLen 0 INT_MAX = -2147483648 := by decide
    unfold SequentialMergeSort.mergeState mergeStateWith
    simp only [hn1, allocVec_neg (0 : Int) (-2147483648) (by decide)]

/-- C16 (amended): for every vector `data` and `int` indices
`0 <= left <= middle <= right < size(data)` with `right < INT_MAX`, the scratch
lengths are `middle - left + 1` and `right - middle` and are not negative, the
indices `left + i` and `middle + 1 + i` of the copy loops stay inside the vector,
`merge` returns (no access is out of bounds) with `i`, `j` at the scratch lengths
and the write index `k` at `right + 1`; and `sort` returns on every vector. -/
theorem merge_total (data : List Int) (left middle right : Int)
    (h0 : 0 ≤ left) (h1 : left ≤ middle) (h2 : middle ≤ right)
    (h3 : right < (data.length : Int)) (h4 : right < INT_MAX) :
    (leftLen left middle = middle - left + 1 ∧ 0 ≤ leftLen left middle ∧
      rightLen middle right = right - middle ∧ 0 ≤ rightLen middle right) ∧
    (∀ i : Int, 0 ≤ i → i < leftLen left middle →
      0 ≤ wrap32 (left + i) ∧ wrap32 (left + i) < (data.length : Int) ∧
        wrap32 (left + i) = left + i) ∧
    (∀ i : Int, 0 ≤ i → i < rightLen middle right →
      0 ≤ wrap32 (wrap32 (middle + 1) + i) ∧
        wrap32 (wrap32 (middle + 1) + i) < (data.length : Int) ∧
        wrap32 (wrap32 (middle + 1) + i) = middle + 1 + i) ∧
    (∃ out, SequentialMergeSort.mergeState data left middle right
        = some (leftLen left middle, rightLen middle right, right + 1, out) ∧
      SequentialMergeSort.merge data left middle right = some out ∧
      ParallelMergeSort.merge data left middle right = some out ∧
      out.length = data.length) ∧
    (∀ (sched : Int → Int → Bool) (S : List Int),
      (∃ out, SequentialMergeSort.sort S = some out) ∧
      (∃ out, ParallelMergeSort.sort sched S = some out)) := by
  have hl : leftLen left middle = middle - left + 1 := by
    unfold INT_MAX at h4; unfold leftLen wrap32; omega
  have hr : rightLen middle right = right - middle := by
    unfold INT_MAX at h4; unfold rightLen wrap32; omega
  have hstate := mergeStateWith_range intLe 0 data left middle right h0 h1 h2 h3
    (by unfold INT_MAX at *; omega) (by unfold INT_MAX at *; omega)
  have hk : wrap32 (right + 1) = right + 1 :=
    wrap32_of_range _ (by omega) (by unfold INT_MAX at h4; omega)
  have hrun := mergeWith_range intLe 0 data left middle right h0 h1 h2 h3
    (by unfold INT_MAX at *; omega) (by unfold INT_MAX at *; omega)
  have hframe := merged_frame data left middle right h0 h1 h2 h3
  refine ⟨⟨hl, by omega, hr, by omega⟩, ?_, ?_, ⟨_, ?_, hrun, hrun, hframe.1⟩, ?_⟩
  · intro i hi0 hi
    have : wrap32 (left + i) = left + i :=
      wrap32_of_range _ (by omega) (by unfold INT_MAX at h4; omega)
    rw [this]; omega
  · intro i hi0 hi
    have e1 : wrap32 (middle + 1) = middle + 1 :=
      wrap32_of_range _ (by omega) (by unfold INT_MAX at h4; omega)
    have e2 : wrap32 (middle + 1 + i) = middle + 1 + i :=
      wrap32_of_range _ (by omega) (by unfold INT_MAX at h4; omega)
    rw [e1, e2]; omega
  · unfold SequentialMergeSort.mergeState
    rw [hstate, hl, hr, hk]
  · intro sched S
    exact ⟨⟨_, seq_sort_eq S⟩, ⟨_, par_sort_eq sched S⟩⟩

/-- C16 (witness): the amended statement at `data = 1 3 2 4`, `left = 0`,
`middle = 1`, `right = 3`. -/
theorem merge_total_witness :
    ((0 : Int) ≤ 0 ∧ (0 : Int) ≤ 1 ∧ (1 : Int) ≤ 3
      ∧ (3 : Int) < (([1, 3, 2, 4] : List Int).length : Int) ∧ (3 : Int) < INT_MAX) ∧
    ((leftLen 0 1 = 1 - 0 + 1 ∧ 0 ≤ leftLen 0 1 ∧ rightLen 1 3 = 3 - 1 ∧ 0 ≤ rightLen 1 3) ∧
    (∀ i : Int, 0 ≤ i → i < leftLen 0 1 →
      0 ≤ wrap32 (0 + i) ∧ wrap32 (0 + i) < (([1, 3, 2, 4] : List Int).length : Int) ∧
        wrap32 (0 + i) = 0 + i) ∧
    (∀ i : Int, 0 ≤ i → i < rightLen 1 3 →
      0 ≤ wrap32 (wrap32 (1 + 1) + i) ∧
        wrap32 (wrap32 (1 + 1) + i) < (([1, 3, 2, 4] : List Int).length : Int) ∧
        wrap32 (wrap32 (1 + 1) + i) = 1 + 1 + i) ∧
    (∃ out, SequentialMergeSort.mergeState [1, 3, 2, 4] 0 1 3
        = some (leftLen 0 1, rightLen 1 3, 3 + 1, out) ∧
      SequentialMergeSort.merge [1, 3, 2, 4] 0 1 3 = some out ∧
      ParallelMergeSort.merge [1, 3, 2, 4] 0 1 3 = some out ∧
      out.length = ([1, 3, 2, 4] : List Int).length) ∧
    (∀ (sched : Int → Int → Bool) (S : List Int),
      (∃ out, SequentialMergeSort.sort S = some out) ∧
      (∃ out, ParallelMergeSort.sort sched S = some out))) :=
  ⟨by decide, merge_total [1, 3, 2, 4] 0 1 3 (by decide) (by decide) (by decide) (by decide)
    (by decide)⟩

/-- C17 (counterexample): for the `int` pair `left = -2147483647`,
`right = 2147483647` the difference `right - left` wraps to `-2`, `middle` is
`-2147483648` and `middle + 1` is `left` again: the call on `[left, middle]` returns
at once, the second recursive call is the call itself on the same data, its width is
not smaller, and neither recursion returns whatever the fuel. -/
theorem mergeSort_recursion_diverges_on_wide_range :
    (-2147483647 : Int) < 2147483647 ∧
    wrap32 (2147483647 - -2147483647) = -2 ∧
    middleOf (-2147483647) 2147483647 = -2147483648 ∧
    wrap32 (middleOf (-2147483647) 2147483647 + 1) = -2147483647 ∧
    ¬ ((2147483647 : Int) - wrap32 (middleOf (-2147483647) 2147483647 + 1)
        < 2147483647 - -2147483647) ∧
    (∀ (fuel : Nat) (data : List Int),
      SequentialMergeSort.mergeSort (fuel + 2) data (-2147483647) 2147483647
        = (SequentialMergeSort.mergeSort (fuel + 1) data (-2147483647) 2147483647).bind
            (fun d => SequentialMergeSort.merge d (-2147483647) (-2147483648) 2147483647)) ∧
    (∀ (fuel : Nat) (data : List Int),
      SequentialMergeSort.mergeSort fuel data (-2147483647) 2147483647 = none) ∧
    (∀ (sched : Int → Int → Bool) (fuel : Nat) (data : List Int),
      ParallelMergeSort.parallelMergeSort sched fuel data (-2147483647) 2147483647 = none) := by
  refine ⟨by decide, by decide, middleOf_wide, middleOf_wide_succ, by decide, ?_,
    fun fuel data => mergeSortWith_wide_none intLe 0 fuel data,
    fun sched fuel data => parallelMergeSortWith_wide_none intLe 0 sched fuel data⟩
  intro fuel data
  have hstep := mergeSortWith_step intLe 0 (fuel + 1) data (-2147483647) 2147483647 (by decide)
  rw [middleOf_wide_succ, middleOf_wide,
    mergeSortWith_base intLe 0 fuel data (-2147483647) (-2147483648) (by decide)] at hstep
  exact hstep

/-- C17 (amended): for every pair of `int` values `left`, `right` that is empty
(`left >= right`) or a range of valid indices of `data`
(`0 <= left < right < size(data)`), the recursion of `mergeSort` and of
`parallelMergeSort` terminates: with `left >= right` the call returns at once and
leaves the vector as it is; with `left < right` one step is the calls on
`[left, middle]` and `[middle+1, right]`, whose widths are strictly smaller, followed
by `merge`; and with fuel above the width both recursions return. -/
theorem mergeSort_recursion_terminates (sched : Int → Int → Bool) (data : List Int)
    (left right : Int) (hl : -2147483648 ≤ left) (hr : right ≤ INT_MAX)
    (hv : left < right → 0 ≤ left ∧ right < (data.length : Int)) :
    (¬ left < right →
      (∀ (fuel : Nat) (d : List Int),
        SequentialMergeSort.mergeSort (fuel + 1) d left right = some d) ∧
      (∀ (fuel : Nat) (d : List Int),
        ParallelMergeSort.parallelMergeSort sched (fuel + 1) d left right = some d)) ∧
    (left < right →
      left ≤ middleOf left right ∧ middleOf left right < right ∧
      wrap32 (middleOf left right + 1) = middleOf left right + 1 ∧
      middleOf left right - left < right - left ∧
      right - wrap32 (middleOf left right + 1) < right - left ∧
      (∀ (fuel : Nat) (d : List Int),
        SequentialMergeSort.mergeSort (fuel + 1) d left right
          = (SequentialMergeSort.mergeSort fuel d left (middleOf left right)).bind (fun d1 =>
              (SequentialMergeSort.mergeSort fuel d1 (wrap32 (middleOf left right + 1))
                right).bind
                (fun d2 => SequentialMergeSort.merge d2 left (middleOf left right) right))) ∧
      (∀ (fuel : Nat) (d : List Int),
        ParallelMergeSort.parallelMergeSort sched (fuel + 1) d left right
          = if sched left right = true then
              (ParallelMergeSort.parallelMergeSort sched fuel d left
                (middleOf left right)).bind (fun d1 =>
                  (ParallelMergeSort.parallelMergeSort sched fuel d1
                    (wrap32 (middleOf left right + 1)) right).bind
                    (fun d2 => ParallelMergeSort.merge d2 left (middleOf left right) right))
            else
              (ParallelMergeSort.parallelMergeSort sched fuel d
                (wrap32 (middleOf left right + 1)) right).bind (fun d1 =>
                  (ParallelMergeSort.parallelMergeSort sched fuel d1 left
                    (middleOf left right)).bind
                    (fun d2 =>
                      ParallelMergeSort.merge d2 left (middleOf left right) right)))) ∧
    (∀ fuel : Nat, (right - left + 1).toNat < fuel →
      (∃ out, SequentialMergeSort.mergeSort fuel data left right = some out) ∧
      (∃ out, ParallelMergeSort.parallelMergeSort sched fuel data left right = some out)) := by
  refine ⟨?_, ?_, ?_⟩
  · intro hge
    exact ⟨fun fuel d => mergeSortWith_base intLe 0 fuel d left right hge,
      fun fuel d => parallelMergeSortWith_base intLe 0 sched fuel d left right hge⟩
  · intro hlt
    obtain ⟨_, e2, e3, e4, e5⟩ := middleOf_facts left right hl hlt hr
      (by have := (hv hlt).1; omega)
    refine ⟨e3, e4, e5, by omega, by rw [e5]; omega,
      fun fuel d => mergeSortWith_step intLe 0 fuel d left right hlt,
      fun fuel d => parallelMergeSortWith_step intLe 0 sched fuel d left right hlt⟩
  · intro fuel hf
    by_cases hlt : left < right
    · obtain ⟨h0, h3⟩ := hv hlt
      exact ⟨⟨_, mergeSortWith_range intLe 0 fuel data left right h0 (by omega) h3 hr (by omega)⟩,
        ⟨_, parallelMergeSortWith_range intLe 0 sched fuel data left right h0 (by omega) h3 hr
          (by omega)⟩⟩
    · obtain ⟨f, rfl⟩ : ∃ f, fuel = f + 1 := ⟨fuel - 1, by omega⟩
      exact ⟨⟨_, mergeSortWith_base intLe 0 f data left right hlt⟩,
        ⟨_, parallelMergeSortWith_base intLe 0 sched f data left right hlt⟩⟩

/-- C17 (witness): the amended statement at `data = 9 4 6 1 8`, `left = 1`,
`right = 3`. -/
theorem mergeSort_recursion_terminates_witness :
    ((-2147483648 : Int) ≤ 1 ∧ (3 : Int) ≤ INT_MAX ∧
      ((1 : Int) < 3 → (0 : Int) ≤ 1 ∧ (3 : Int) < (([9, 4, 6, 1, 8] : List Int).length : Int))) ∧
    ((¬ (1 : Int) < 3 →
      (∀ (fuel : Nat) (d : List Int),
        SequentialMergeSort.mergeSort (fuel + 1) d 1 3 = some d) ∧
      (∀ (fuel : Nat) (d : List Int),
        ParallelMergeSort.parallelMergeSort (fun _ _ => true) (fuel + 1) d 1 3 = some d)) ∧
    ((1 : Int) < 3 →
      1 ≤ middleOf 1 3 ∧ middleOf 1 3 < 3 ∧
      wrap32 (middleOf 1 3 + 1) = middleOf 1 3 + 1 ∧
      middleOf 1 3 - 1 < 3 - 1 ∧
      3 - wrap32 (middleOf 1 3 + 1) < 3 - 1 ∧
      (∀ (fuel : Nat) (d : List Int),
        SequentialMergeSort.mergeSort (fuel + 1) d 1 3
          = (SequentialMergeSort.mergeSort fuel d 1 (middleOf 1 3)).bind (fun d1 =>
              (SequentialMergeSort.mergeSort fuel d1 (wrap32 (middleOf 1 3 + 1)) 3).bind
                (fun d2 => SequentialMergeSort.merge d2 1 (middleOf 1 3) 3))) ∧
      (∀ (fuel : Nat) (d : List Int),
        ParallelMergeSort.parallelMergeSort (fun _ _ => true) (fuel + 1) d 1 3
          = if (fun _ _ => true : Int → Int → Bool) 1 3 = true then
              (ParallelMergeSort.parallelMergeSort (fun _ _ => true) fuel d 1
                (middleOf 1 3)).bind (fun d1 =>
                  (ParallelMergeSort.parallelMergeSort (fun _ _ => true) fuel d1
                    (wrap32 (middleOf 1 3 + 1)) 3).bind
                    (fun d2 => ParallelMergeSort.merge d2 1 (middleOf 1 3) 3))
            else
              (ParallelMergeSort.parallelMergeSort (fun _ _ => true) fuel d
                (wrap32 (middleOf 1 3 + 1)) 3).bind (fun d1 =>
                  (ParallelMergeSort.parallelMergeSort (fun _ _ => true) fuel d1 1
                    (middleOf 1 3)).bind
                    (fun d2 => ParallelMergeSort.merge d2 1 (middleOf 1 3) 3)))) ∧
    (∀ fuel : Nat, ((3 : Int) - 1 + 1).toNat < fuel →
      (∃ out, SequentialMergeSort.mergeSort fuel [9, 4, 6, 1, 8] 1 3 = some out) ∧
      (∃ out, ParallelMergeSort.parallelMergeSort (fun _ _ => true) fuel [9, 4, 6, 1, 8] 1 3
        = some out))) :=
  ⟨by decide,
    mergeSort_recursion_terminates (fun _ _ => true) [9, 4, 6, 1, 8] 1 3 (by decide)
      (by decide) (by decide)⟩

/-- C18: the right bound that `sort` passes to the recursion is `data.size() - 1`
taken modulo `2^64` and narrowed to `int`.  For size `0` it is `-1`: both sorters
call the recursion on `[0, -1]`.  For every vector `S` of size `n` with
`1 <= n <= 2^31` it is `n - 1`, an `int` between `0` and `INT_MAX`: both sorters
call the recursion on `[0, n - 1]`, and that range holds exactly the whole of `S`. -/
theorem sort_right_bound (sched : Int → Int → Bool) (S : List Int)
    (h1 : 1 ≤ S.length) (h2 : S.length ≤ 2147483648) :
    (sizeMinusOne 0 = -1 ∧
      SequentialMergeSort.sort [] = SequentialMergeSort.mergeSort 1 [] 0 (-1) ∧
      ParallelMergeSort.sort sched [] = ParallelMergeSort.parallelMergeSort sched 1 [] 0 (-1)) ∧
    (sizeMinusOne S.length = (S.length : Int) - 1 ∧
      0 ≤ sizeMinusOne S.length ∧ sizeMinusOne S.length ≤ INT_MAX ∧
      sizeMinusOne 2147483648 = INT_MAX) ∧
    SequentialMergeSort.sort S
      = SequentialMergeSort.mergeSort (S.length + 1) S 0 ((S.length : Int) - 1) ∧
    ParallelMergeSort.sort sched S
      = ParallelMergeSort.parallelMergeSort sched (S.length + 1) S 0 ((S.length : Int) - 1) ∧
    slice S 0 ((S.length : Int) - 1) = S ∧
    (∀ n : Nat, 1 ≤ n → n ≤ 2147483648 → sizeMinusOne n = (n : Int) - 1) := by
  have h := sizeMinusOne_small S.length h1 h2
  have hseq : SequentialMergeSort.sort S
      = SequentialMergeSort.mergeSort (S.length + 1) S 0 ((S.length : Int) - 1) := by
    unfold SequentialMergeSort.sort SequentialMergeSort.mergeSort sortWith
    rw [h]
  have hpar : ParallelMergeSort.sort sched S
      = ParallelMergeSort.parallelMergeSort sched (S.length + 1) S 0 ((S.length : Int) - 1) := by
    unfold ParallelMergeSort.sort ParallelMergeSort.parallelMergeSort parallelSortWith
    rw [h]
  have hslice : slice S 0 ((S.length : Int) - 1) = S := by
    unfold MergeSortModel.slice
    have e1 : (0 : Int).toNat = 0 := rfl
    have e2 : ((S.length : Int) - 1 - 0 + 1).toNat = S.length := by omega
    rw [e1, e2, List.drop_zero, List.take_length]
  refine ⟨⟨sizeMinusOne_zero, ?_, ?_⟩, ⟨h, by omega, by unfold INT_MAX; omega, by decide⟩,
    hseq, hpar, hslice, fun n hn1 hn2 => sizeMinusOne_small n hn1 hn2⟩
  · unfold SequentialMergeSort.sort SequentialMergeSort.mergeSort sortWith
    rw [List.length_nil, sizeMinusOne_zero]
  · unfold ParallelMergeSort.sort ParallelMergeSort.parallelMergeSort parallelSortWith
    rw [List.length_nil, sizeMinusOne_zero]

/-- C18 (witness): the statement at `S = 5 2 9 1 5 6`. -/
theorem sort_right_bound_witness :
    (1 ≤ ([5, 2, 9, 1, 5, 6] : List Int).length ∧
      ([5, 2, 9, 1, 5, 6] : List Int).length ≤ 2147483648) ∧
    ((sizeMinusOne 0 = -1 ∧
      SequentialMergeSort.sort [] = SequentialMergeSort.mergeSort 1 [] 0 (-1) ∧
      ParallelMergeSort.sort (fun _ _ => false) []
        = ParallelMergeSort.parallelMergeSort (fun _ _ => false) 1 [] 0 (-1)) ∧
    (sizeMinusOne ([5, 2, 9, 1, 5, 6] : List Int).length
        = (([5, 2, 9, 1, 5, 6] : List Int).length : Int) - 1 ∧
      0 ≤ sizeMinusOne ([5, 2, 9, 1, 5, 6] : List Int).length ∧
      sizeMinusOne ([5, 2, 9, 1, 5, 6] : List Int).length ≤ INT_MAX ∧
      sizeMinusOne 2147483648 = INT_MAX) ∧
    SequentialMergeSort.sort [5, 2, 9, 1, 5, 6]
      = SequentialMergeSort.mergeSort (([5, 2, 9, 1, 5, 6] : List Int).length + 1)
          [5, 2, 9, 1, 5, 6] 0 ((([5, 2, 9, 1, 5, 6] : List Int).length : Int) - 1) ∧
    ParallelMergeSort.sort (fun _ _ => false) [5, 2, 9, 1, 5, 6]
      = ParallelMergeSort.parallelMergeSort (fun _ _ => false)
          (([5, 2, 9, 1, 5, 6] : List Int).length + 1) [5, 2, 9, 1, 5, 6] 0
          ((([5, 2, 9, 1, 5, 6] : List Int).length : Int) - 1) ∧
    slice ([5, 2, 9, 1, 5, 6] : List Int) 0 ((([5, 2, 9, 1, 5, 6] : List Int).length : Int) - 1)
      = [5, 2, 9, 1, 5, 6] ∧
    (∀ n : Nat, 1 ≤ n → n ≤ 2147483648 → sizeMinusOne n = (n : Int) - 1)) :=
  ⟨by decide,
    sort_right_bound (fun _ _ => false) [5, 2, 9, 1, 5, 6] (by decide) (by decide)⟩

/-- C19 (defect of the code): the vector of `2^31` ones followed by a zero and the
vector of a zero followed by `2^31` ones are permutations of each other, but
`data.size() - 1` narrows to a negative `int` and `sort` returns each of them
unchanged, so the two results differ. -/
theorem sort_depends_on_order_beyond_int_range :
    (List.replicate 2147483648 (1 : Int) ++ [0]).Perm (0 :: List.replicate 2147483648 (1 : Int)) ∧
    SequentialMergeSort.sort (List.replicate 2147483648 1 ++ [0])
      = some (List.replicate 2147483648 1 ++ [0]) ∧
    SequentialMergeSort.sort (0 :: List.replicate 2147483648 1)
      = some (0 :: List.replicate 2147483648 1) ∧
    SequentialMergeSort.sort (List.replicate 2147483648 1 ++ [0])
      ≠ SequentialMergeSort.sort (0 :: List.replicate 2147483648 1) := by
  have hS := seq_sort_huge 1 0
  have hT : SequentialMergeSort.sort (0 :: List.replicate 2147483648 1)
      = some (0 :: List.replicate 2147483648 1) :=
    seq_sort_of_huge_length _ (by rw [List.length_cons, List.length_replicate])
  refine ⟨List.perm_append_singleton 0 _, hS, hT, ?_⟩
  rw [hS, hT]
  intro heq
  have h1 := congrArg List.head? (Option.some.inj heq)
  rw [List.head?_append, List.head?_replicate, if_neg (by decide), List.head?_cons] at h1
  exact absurd h1 (by decide)

/-- Where the size fits the `int` index: for every two sequences `S` and `T` of at
most `2^31` integers that are permutations of each other, each sorter returns the
same sequence on `S` and on `T`. -/
theorem sort_perm_invariant (sched : Int → Int → Bool) (S T : List Int)
    (hlen : S.length ≤ 2147483648) (hp : S.Perm T) :
    SequentialMergeSort.sort S = SequentialMergeSort.sort T ∧
    ParallelMergeSort.sort sched S = ParallelMergeSort.sort sched T := by
  have hT : T.length ≤ 2147483648 := by rw [← hp.length_eq]; exact hlen
  have heq : List.mergeSort S intLe = List.mergeSort T intLe :=
    sorted_perm_unique _ _
      (((List.mergeSort_perm S intLe).trans hp).trans (List.mergeSort_perm T intLe).symm)
      (sorted_mergeSort_int S) (sorted_mergeSort_int T)
  constructor
  · rw [seq_sort_small S hlen, seq_sort_small T hT, heq]
  · rw [par_sort_small sched S hlen, par_sort_small sched T hT, heq]

/-- An instance of `sort_perm_invariant`, at `S = 3 1 2`, `T = 2 3 1`. -/
theorem sort_perm_invariant_witness :
    (([3, 1, 2] : List Int).length ≤ 2147483648 ∧ ([3, 1, 2] : List Int).Perm [2, 3, 1]) ∧
    (SequentialMergeSort.sort [3, 1, 2] = SequentialMergeSort.sort [2, 3, 1] ∧
    ParallelMergeSort.sort (fun _ _ => true) [3, 1, 2]
      = ParallelMergeSort.sort (fun _ _ => true) [2, 3, 1]) :=
  ⟨⟨by decide, by decide⟩,
    sort_perm_invariant (fun _ _ => true) [3, 1, 2] [2, 3, 1] (by decide) (by decide)⟩
